import Mathlib

/-!
# Verification of the Tooner JSON↔Toon codec

A shallow embedding of the codec implemented in `src/tooner/server.py` and
`hooks/compress_prompt_standalone.py` (the two files contain the same codec;
the embedding follows `server.py`, whose line numbers are cited).

Python strings are modelled as `List Char` (one entry per Unicode code point,
matching Python's `len`/indexing).  Python `int` is Lean `Int`.  Python floats
appear only as *parse results* of decimal literals; they are modelled exactly
as decimal numbers `m / 10^d` in canonical form.  This differs from binary64
rounding, but no theorem below depends on the value of a parsed float: the
decoder and the numeric-normalisation function share one parsing function, so
float values only ever meet themselves.
-/

set_option maxRecDepth 40000

/-- Python strings, one element per code point. -/
abbrev Str := List Char

/-- The characters stripped by Python's `str.strip()` (ASCII whitespace;
Python also strips some non-ASCII Unicode whitespace, which never occurs in
any input considered here). -/
def isPySpace (c : Char) : Bool :=
  c = ' ' || c = '\t' || c = '\n' || c = '\r' || c = '\x0b' || c = '\x0c'

/-- `str.lstrip()`. -/
def pyLStrip (s : Str) : Str := s.dropWhile isPySpace

/-- `str.rstrip()`. -/
def pyRStrip (s : Str) : Str := (s.reverse.dropWhile isPySpace).reverse

/-- `str.strip()`. -/
def pyStrip (s : Str) : Str := pyRStrip (pyLStrip s)

/-- Python `s.split(c)` for a single-character separator. -/
def pySplitChar (c : Char) : Str → List Str
  | [] => [[]]
  | x :: xs =>
    if x = c then [] :: pySplitChar c xs
    else
      match pySplitChar c xs with
      | [] => [[x]]
      | g :: gs => (x :: g) :: gs

/-- Python `sep.join(parts)`. -/
def pyJoin (sep : Str) : List Str → Str
  | [] => []
  | [p] => p
  | p :: ps => p ++ sep ++ pyJoin sep ps

/-- Python `s.index(c)` for a character known to occur (`List.findIdx`
returns the length when absent; every use below is guarded by a containment
check, exactly as the source guards `header.index` by `'{' in header`). -/
def pyIndexC (c : Char) (s : Str) : Nat := s.findIdx (· = c)

/-- Python slice `s[a:b]` for `0 ≤ a`, `0 ≤ b` (an empty slice when `b ≤ a`,
as in Python). -/
def pySlice (s : Str) (a b : Nat) : Str := (s.drop a).take (b - a)

/-- The decimal digit characters. -/
def digitChar (n : Nat) : Char :=
  if n = 0 then '0' else if n = 1 then '1' else if n = 2 then '2'
  else if n = 3 then '3' else if n = 4 then '4' else if n = 5 then '5'
  else if n = 6 then '6' else if n = 7 then '7' else if n = 8 then '8' else '9'

/-- Numeric value of a decimal digit character. -/
def digitVal (c : Char) : Nat := c.toNat - 48

/-- Decimal digits of a natural number (fuel-based so that it reduces in the
kernel; the fuel `n + 1` always suffices since `n / 10` loses a digit). -/
def natToDigitsAux : Nat → Nat → Str
  | 0, _ => []
  | fuel + 1, n =>
    if n < 10 then [digitChar n]
    else natToDigitsAux fuel (n / 10) ++ [digitChar (n % 10)]

/-- Decimal digits of a natural number, as produced by Python's `str`. -/
def natToDigits (n : Nat) : Str := natToDigitsAux (n + 1) n

/-- Python `str(n)` for an integer. -/
def pyIntStr : Int → Str
  | .ofNat m => natToDigits m
  | .negSucc m => '-' :: natToDigits (m + 1)

/-- Digit accumulator for Python `int(...)`: digits with single underscores
allowed between digits (`int("1_0") == 10`, `int("1__0")` raises). The first
character is checked to be a digit by the caller. -/
def parseDigitsU (acc : Nat) : Str → Option Nat
  | [] => some acc
  | c :: cs =>
    if c.isDigit then parseDigitsU (acc * 10 + digitVal c) cs
    else if c = '_' then
      match cs with
      | d :: cs' => if d.isDigit then parseDigitsU (acc * 10 + digitVal d) cs' else none
      | [] => none
    else none

/-- Python `int(s)` on a string: surrounding whitespace is ignored, an
optional sign is followed by a non-empty digit run (underscores allowed
between digits).  Non-ASCII digits, accepted by Python, are not modelled;
they occur in no input considered here. -/
def pyIntParseCore : Str → Option Int
  | [] => none
  | c :: rest =>
    if c = '-' then
      match rest with
      | d :: _ => if d.isDigit then (parseDigitsU 0 rest).map (fun n => -(n : Int)) else none
      | [] => none
    else if c = '+' then
      match rest with
      | d :: _ => if d.isDigit then (parseDigitsU 0 rest).map (fun n => (n : Int)) else none
      | [] => none
    else if c.isDigit then (parseDigitsU 0 (c :: rest)).map (fun n => (n : Int))
    else none

def pyIntParse (s : Str) : Option Int := pyIntParseCore (pyStrip s)

/-- Validity of a digit run with underscores (non-empty, starts with a digit,
underscores only singly and between digits), tail part. -/
def runOkTail : Str → Bool
  | [] => true
  | c :: rest =>
    if c.isDigit then runOkTail rest
    else if c = '_' then
      match rest with
      | d :: rest' => d.isDigit && runOkTail rest'
      | [] => false
    else false

/-- Validity of a digit run with underscores. -/
def runOk : Str → Bool
  | [] => false
  | c :: rest => c.isDigit && runOkTail rest

/-- Value of a digit run, ignoring underscores. -/
def runVal (s : Str) : Nat :=
  (s.filter Char.isDigit).foldl (fun a c => a * 10 + digitVal c) 0

/-- Number of digits in a digit run, ignoring underscores. -/
def runCount (s : Str) : Nat := (s.filter Char.isDigit).length

/-- Canonical form of the decimal number `m / 10^d`: common factors of 10 are
removed (structural in `d` so that it reduces in the kernel). -/
def canonF : Int → Nat → Int × Nat
  | m, 0 => (m, 0)
  | m, d + 1 =>
    if m = 0 then (0, 0)
    else if m % 10 = 0 then canonF (m / 10) d
    else (m, d + 1)

/-- Python `float(s)` on a string, returning the exact decimal value as a
canonical pair `(m, d)` standing for `m / 10^d`.  The grammar follows CPython:
optional surrounding whitespace and sign, then `digits [. digits] | . digits`
with an optional `e`/`E` exponent; underscores are allowed inside each digit
run under the `int(...)` rule.  The special forms `inf`/`infinity`/`nan`
contain no `'.'` and are therefore never passed to this function by the
decoder; they are not modelled. -/
def pyFloatParse (s : Str) : Option (Int × Nat) :=
  let t := pyStrip s
  let (sg, t) : Int × Str :=
    match t with
    | '-' :: r => (-1, r)
    | '+' :: r => (1, r)
    | _ => (1, t)
  let mant := t.takeWhile (fun c => ¬ (c = 'e' || c = 'E'))
  let expPart := t.dropWhile (fun c => ¬ (c = 'e' || c = 'E'))
  let ip := mant.takeWhile (· ≠ '.')
  let rest := mant.dropWhile (· ≠ '.')
  let hasDot := rest ≠ []
  let fp := rest.tail
  let mantOk :=
    if hasDot then
      (if ip = [] then runOk fp
       else if fp = [] then runOk ip
       else runOk ip && runOk fp)
    else runOk ip
  let expOk_and_val : Option Int :=
    match expPart with
    | [] => some 0
    | _ :: '-' :: ds => if runOk ds then some (-(runVal ds : Int)) else none
    | _ :: '+' :: ds => if runOk ds then some (runVal ds : Int) else none
    | _ :: ds => if runOk ds then some (runVal ds : Int) else none
  match expOk_and_val with
  | none => none
  | some e =>
    if mantOk then
      let m0 : Int := sg * ((runVal ip * 10 ^ runCount fp + runVal fp : Nat) : Int)
      let ex : Int := e - (runCount fp : Int)
      if 0 ≤ ex then some (m0 * 10 ^ ex.toNat, 0)
      else some (canonF m0 ex.natAbs)
    else none

/-- JSON-like values: the universal input/output type of the codec
(Python `None`/`bool`/`int`/`float`/`str`/`list`/`dict`).  A float is the
exact decimal `m / 10^d` in canonical form (see the module comment). -/
inductive JVal where
  | null
  | bool (b : Bool)
  | int (n : Int)
  | float (m : Int) (d : Nat)
  | str (s : Str)
  | arr (xs : List JVal)
  | obj (kvs : List (Str × JVal))

instance : Inhabited JVal := ⟨JVal.null⟩

/-- Lowercase hexadecimal digit characters. -/
def hexChar (n : Nat) : Char :=
  if n < 10 then digitChar n
  else if n = 10 then 'a' else if n = 11 then 'b' else if n = 12 then 'c'
  else if n = 13 then 'd' else if n = 14 then 'e' else 'f'

/-- Two lowercase hex digits. -/
def hex2 (n : Nat) : Str := [hexChar (n / 16 % 16), hexChar (n % 16)]

/-- Four lowercase hex digits. -/
def hex4 (n : Nat) : Str :=
  [hexChar (n / 4096 % 16), hexChar (n / 256 % 16), hexChar (n / 16 % 16), hexChar (n % 16)]

/-- One character of Python `repr` for a string quoted with `q`. -/
def escapePyChar (q c : Char) : Str :=
  if c = '\\' then ['\\', '\\']
  else if c = q then ['\\', q]
  else if c = '\n' then ['\\', 'n']
  else if c = '\r' then ['\\', 'r']
  else if c = '\t' then ['\\', 't']
  else if c.toNat < 32 || c.toNat = 127 then '\\' :: 'x' :: hex2 c.toNat
  else [c]

/-- Python `repr` of a string: single quotes, switching to double quotes when
the text contains a single quote but no double quote; backslash escapes for
the quote character, backslash, and ASCII control characters.  (Python also
escapes some non-printable non-ASCII characters; none occur in any input
considered here.) -/
def pyStrRepr (s : Str) : Str :=
  let q : Char := if s.contains '\'' && ¬ s.contains '"' then '"' else '\''
  q :: s.flatMap (escapePyChar q) ++ [q]

/-- Python `str(x)` for a float `m / 10^d`: the plain decimal rendering.
(Python switches to exponent notation for very large or very small magnitudes
and rounds to binary64; floats never occur in any theorem below, so the plain
decimal form suffices.) -/
def pyFloatStr (m : Int) (d : Nat) : Str :=
  let sign : Str := if m < 0 then ['-'] else []
  let digs := natToDigits m.natAbs
  if d = 0 then sign ++ digs ++ ('.' :: ['0'])
  else
    let padded := if digs.length ≤ d then List.replicate (d + 1 - digs.length) '0' ++ digs else digs
    sign ++ padded.take (padded.length - d) ++ '.' :: padded.drop (padded.length - d)

mutual
/-- Python `repr(value)`: how `str(...)` renders values nested inside a list
or dict (`server.py` line 68 and 82 apply `str` to arbitrary values). -/
def pyRepr : JVal → Str
  | .null => "None".data
  | .bool b => if b then "True".data else "False".data
  | .int n => pyIntStr n
  | .float m d => pyFloatStr m d
  | .str s => pyStrRepr s
  | .arr xs => '[' :: pyReprItems xs ++ [']']
  | .obj kvs => '{' :: pyReprPairs kvs ++ ['}']

/-- `", ".join(repr(x) for x in xs)`. -/
def pyReprItems : List JVal → Str
  | [] => []
  | [x] => pyRepr x
  | x :: xs => pyRepr x ++ (',' :: ' ' :: pyReprItems xs)

/-- `", ".join(f"{k!r}: {v!r}" for k, v in kvs)`. -/
def pyReprPairs : List (Str × JVal) → Str
  | [] => []
  | [(k, v)] => pyStrRepr k ++ ':' :: ' ' :: pyRepr v
  | (k, v) :: ps => pyStrRepr k ++ ':' :: ' ' :: pyRepr v ++ (',' :: ' ' :: pyReprPairs ps)
end

/-- Python `str(value)`: identity on strings, `repr`-based otherwise. -/
def pyStr : JVal → Str
  | .str s => s
  | v => pyRepr v

/-- One character of `json.dumps` string escaping with `ensure_ascii=True`:
everything outside printable ASCII is `\uXXXX`-escaped (surrogate pairs above
the BMP). -/
def jsonEscChar (c : Char) : Str :=
  if c = '"' then ['\\', '"']
  else if c = '\\' then ['\\', '\\']
  else if c = '\n' then ['\\', 'n']
  else if c = '\r' then ['\\', 'r']
  else if c = '\t' then ['\\', 't']
  else if c = '\x08' then ['\\', 'b']
  else if c = '\x0c' then ['\\', 'f']
  else if c.toNat < 32 then '\\' :: 'u' :: hex4 c.toNat
  else if c.toNat < 127 then [c]
  else if c.toNat ≤ 65535 then '\\' :: 'u' :: hex4 c.toNat
  else
    let v := c.toNat - 65536
    '\\' :: 'u' :: hex4 (55296 + v / 1024) ++ '\\' :: 'u' :: hex4 (56320 + v % 1024)

/-- `json.dumps` of a JSON string. -/
def jsonStrDump (s : Str) : Str := '"' :: s.flatMap jsonEscChar ++ ['"']

/-- `json.dumps` of a scalar. -/
def jsonScalarDump : JVal → Str
  | .null => "null".data
  | .bool b => if b then "true".data else "false".data
  | .int n => pyIntStr n
  | .float m d => pyFloatStr m d
  | .str s => jsonStrDump s
  | .arr _ => []
  | .obj _ => []

mutual
/-- `json.dumps(value)` with default arguments: separators `", "` and
`": "`, no indentation, `ensure_ascii=True`
(`compress_prompt_standalone.py` line 157). -/
def jsonDumps : JVal → Str
  | .arr xs => '[' :: jsonDumpsItems xs ++ [']']
  | .obj kvs => '{' :: jsonDumpsPairs kvs ++ ['}']
  | v => jsonScalarDump v

/-- Elements of a compact-dumped array. -/
def jsonDumpsItems : List JVal → Str
  | [] => []
  | [x] => jsonDumps x
  | x :: xs => jsonDumps x ++ (',' :: ' ' :: jsonDumpsItems xs)

/-- Members of a compact-dumped object. -/
def jsonDumpsPairs : List (Str × JVal) → Str
  | [] => []
  | [(k, v)] => jsonStrDump k ++ ':' :: ' ' :: jsonDumps v
  | (k, v) :: ps => jsonStrDump k ++ ':' :: ' ' :: jsonDumps v ++ (',' :: ' ' :: jsonDumpsPairs ps)
end

mutual
/-- `json.dumps(value, indent=2)` at nesting level `lvl` (item separator
`","` plus newline-and-indent, key separator `": "`, as Python uses when an
indent is given). -/
def jsonDumpsInd : Nat → JVal → Str
  | _, .arr [] => '[' :: [']']
  | _, .obj [] => '{' :: ['}']
  | lvl, .arr xs =>
    '[' :: jsonDumpsIndItems lvl xs ++ '\n' :: List.replicate (lvl * 2) ' ' ++ [']']
  | lvl, .obj kvs =>
    '{' :: jsonDumpsIndPairs lvl kvs ++ '\n' :: List.replicate (lvl * 2) ' ' ++ ['}']
  | _, v => jsonScalarDump v

/-- Elements of an indent-dumped array. -/
def jsonDumpsIndItems : Nat → List JVal → Str
  | _, [] => []
  | lvl, [x] => '\n' :: List.replicate ((lvl + 1) * 2) ' ' ++ jsonDumpsInd (lvl + 1) x
  | lvl, x :: xs =>
    '\n' :: List.replicate ((lvl + 1) * 2) ' ' ++ jsonDumpsInd (lvl + 1) x
      ++ ',' :: jsonDumpsIndItems lvl xs

/-- Members of an indent-dumped object. -/
def jsonDumpsIndPairs : Nat → List (Str × JVal) → Str
  | _, [] => []
  | lvl, [(k, v)] =>
    '\n' :: List.replicate ((lvl + 1) * 2) ' ' ++ jsonStrDump k ++ ':' :: ' ' :: jsonDumpsInd (lvl + 1) v
  | lvl, (k, v) :: ps =>
    '\n' :: List.replicate ((lvl + 1) * 2) ' ' ++ jsonStrDump k ++ ':' :: ' ' :: jsonDumpsInd (lvl + 1) v
      ++ ',' :: jsonDumpsIndPairs lvl ps
end

/-- `json.dumps(value, indent=2)`: the pretty-printed fallback used by the
encoder (`server.py` lines 74, 95) . -/
def jsonDumpsIndent2 (v : JVal) : Str := jsonDumpsInd 0 v

/-- Python `bool` viewed as an integer (`True == 1`, `False == 0`). -/
def pyBoolInt (b : Bool) : Int := if b then 1 else 0

/-- Equality of the decimal float `m / 10^d` (canonical) with the integer
`a`. -/
def intFloatEqB (a m : Int) (d : Nat) : Bool := m == a * (10 : Int) ^ d

mutual
/-- Python `==` on JSON-like values: numeric kinds compare by value, lists
element-wise, dicts as finite maps (same size and every key of the left dict
present on the right with an equal value — for the duplicate-free key lists
Python dicts produce, this is exactly dict equality). -/
def pyEq : JVal → JVal → Bool
  | .null, .null => true
  | .bool a, .bool b => a == b
  | .bool a, .int b => pyBoolInt a == b
  | .bool a, .float m d => intFloatEqB (pyBoolInt a) m d
  | .int a, .bool b => a == pyBoolInt b
  | .int a, .int b => a == b
  | .int a, .float m d => intFloatEqB a m d
  | .float m d, .bool b => intFloatEqB (pyBoolInt b) m d
  | .float m d, .int a => intFloatEqB a m d
  | .float m d, .float m' d' => m == m' && d == d'
  | .str a, .str b => a == b
  | .arr xs, .arr ys => pyEqItems xs ys
  | .obj xs, .obj ys => xs.length == ys.length && pyEqSub xs ys
  | _, _ => false

/-- Element-wise Python `==` on lists. -/
def pyEqItems : List JVal → List JVal → Bool
  | [], [] => true
  | x :: xs, y :: ys => pyEq x y && pyEqItems xs ys
  | _, _ => false

/-- Every pair of the left dict is matched by the right dict. -/
def pyEqSub : List (Str × JVal) → List (Str × JVal) → Bool
  | [], _ => true
  | (k, v) :: rest, ys =>
    (match ys.find? (fun p => p.1 == k) with
     | some p => pyEq v p.2
     | none => false) && pyEqSub rest ys
end

/-- Python dict assignment `d[k] = v` on an insertion-ordered association
list: an existing key keeps its position and gets the new value, a new key is
appended. -/
def dictInsert (kvs : List (Str × JVal)) (k : Str) (v : JVal) : List (Str × JVal) :=
  if kvs.any (fun p => p.1 == k) then kvs.map (fun p => if p.1 == k then (p.1, v) else p)
  else kvs ++ [(k, v)]

/-- Building a Python dict from a key/value sequence (later occurrences of a
key overwrite earlier ones, keeping the first position). -/
def dictOfPairs (ps : List (Str × JVal)) : List (Str × JVal) :=
  ps.foldl (fun acc p => dictInsert acc p.1 p.2) []

/-- The numeric coercion the decoder applies to one field value
(`server.py` lines 151-159): a value containing `'.'` is parsed as a float,
otherwise as an int, and on failure the string is kept. -/
def coerceVal (value : Str) : JVal :=
  if value.contains '.' then
    match pyFloatParse value with
    | some (m, d) => .float m d
    | none => .str value
  else
    match pyIntParse value with
    | some n => .int n
    | none => .str value

mutual
/-- The normalisation named by the round-trip property (§4.3/§8 of the spec):
every string value that looks numeric is replaced by the number the decoder
would produce for it; it is by construction the same coercion the decoder
applies. -/
def normalizeNums : JVal → JVal
  | .str s => coerceVal s
  | .arr xs => .arr (normalizeNumsItems xs)
  | .obj kvs => .obj (normalizeNumsPairs kvs)
  | v => v

/-- `normalizeNums` over list elements. -/
def normalizeNumsItems : List JVal → List JVal
  | [] => []
  | x :: xs => normalizeNums x :: normalizeNumsItems xs

/-- `normalizeNums` over dict values. -/
def normalizeNumsPairs : List (Str × JVal) → List (Str × JVal)
  | [] => []
  | (k, v) :: ps => (k, normalizeNums v) :: normalizeNumsPairs ps
end

/-- JSON whitespace as accepted between tokens by `json.loads`. -/
def jsonWsB (c : Char) : Bool := c = ' ' || c = '\t' || c = '\n' || c = '\r'

/-- Hexadecimal digit value, upper or lower case. -/
def hexVal (c : Char) : Option Nat :=
  if c.isDigit then some (digitVal c)
  else if 'a' ≤ c && c ≤ 'f' then some (c.toNat - 87)
  else if 'A' ≤ c && c ≤ 'F' then some (c.toNat - 55)
  else none

/-- A `Char` from a Unicode code point; a lone surrogate (representable in a
Python string but not in `Char`) becomes U+FFFD.  No input considered in any
theorem contains one. -/
def mkChar (n : Nat) : Char :=
  if n < 55296 || (57343 < n && n < 1114112) then Char.ofNat n else '�'

/-- `json.loads` string scanning after the opening quote (strict mode:
unescaped control characters are rejected; `\uXXXX` escapes combine surrogate
pairs). -/
def parseJStr : Nat → Str → Option (Str × Str)
  | 0, _ => none
  | fuel + 1, s =>
    match s with
    | [] => none
    | '"' :: rest => some ([], rest)
    | '\\' :: e :: rest =>
      if e = 'u' then
        match rest with
        | h1 :: h2 :: h3 :: h4 :: rest' =>
          match hexVal h1, hexVal h2, hexVal h3, hexVal h4 with
          | some a, some b, some c, some d =>
            let n := a * 4096 + b * 256 + c * 16 + d
            if 55296 ≤ n && n < 56320 then
              match rest' with
              | '\\' :: 'u' :: g1 :: g2 :: g3 :: g4 :: rest'' =>
                (match hexVal g1, hexVal g2, hexVal g3, hexVal g4 with
                 | some a', some b', some c', some d' =>
                   let n' := a' * 4096 + b' * 256 + c' * 16 + d'
                   if 56320 ≤ n' && n' < 57344 then
                     (parseJStr fuel rest'').map (fun (t, r) =>
                       (mkChar (65536 + (n - 55296) * 1024 + (n' - 56320)) :: t, r))
                   else (parseJStr fuel rest').map (fun (t, r) => (mkChar n :: t, r))
                 | _, _, _, _ => (parseJStr fuel rest').map (fun (t, r) => (mkChar n :: t, r)))
              | _ => (parseJStr fuel rest').map (fun (t, r) => (mkChar n :: t, r))
            else (parseJStr fuel rest').map (fun (t, r) => (mkChar n :: t, r))
          | _, _, _, _ => none
        | _ => none
      else if e = '"' then (parseJStr fuel rest).map (fun (t, r) => ('"' :: t, r))
      else if e = '\\' then (parseJStr fuel rest).map (fun (t, r) => ('\\' :: t, r))
      else if e = '/' then (parseJStr fuel rest).map (fun (t, r) => ('/' :: t, r))
      else if e = 'b' then (parseJStr fuel rest).map (fun (t, r) => ('\x08' :: t, r))
      else if e = 'f' then (parseJStr fuel rest).map (fun (t, r) => ('\x0c' :: t, r))
      else if e = 'n' then (parseJStr fuel rest).map (fun (t, r) => ('\n' :: t, r))
      else if e = 'r' then (parseJStr fuel rest).map (fun (t, r) => ('\r' :: t, r))
      else if e = 't' then (parseJStr fuel rest).map (fun (t, r) => ('\t' :: t, r))
      else none
    | c :: rest =>
      if c.toNat < 32 then none
      else (parseJStr fuel rest).map (fun (t, r) => (c :: t, r))

/-- `json.loads` number scanning (strict JSON grammar: no leading `+`, no
leading zeros, no underscores; an integer literal yields an int, anything
with a fraction or exponent yields a float). -/
def parseJNum (s : Str) : Option (JVal × Str) :=
  let (neg, s1) : Bool × Str := match s with | '-' :: r => (true, r) | _ => (false, s)
  let (ipart, r2) : Str × Str :=
    match s1 with
    | '0' :: r => (['0'], r)
    | _ => (s1.takeWhile Char.isDigit, s1.dropWhile Char.isDigit)
  if ipart = [] then none
  else if ipart ≠ ['0'] && ¬ (ipart.all Char.isDigit) then none
  else
    let iv := ipart.foldl (fun a c => a * 10 + digitVal c) 0
    let (fpart, r3) : Str × Str :=
      match r2 with
      | '.' :: r => (r.takeWhile Char.isDigit, r.dropWhile Char.isDigit)
      | _ => ([], r2)
    let hasDot : Bool := match r2 with | '.' :: _ => true | _ => false
    if hasDot && fpart = [] then none
    else
      let (hasExp, esign, edigs, r4) : Bool × Int × Str × Str :=
        match r3 with
        | 'e' :: '-' :: r => (true, -1, r.takeWhile Char.isDigit, r.dropWhile Char.isDigit)
        | 'e' :: '+' :: r => (true, 1, r.takeWhile Char.isDigit, r.dropWhile Char.isDigit)
        | 'e' :: r => (true, 1, r.takeWhile Char.isDigit, r.dropWhile Char.isDigit)
        | 'E' :: '-' :: r => (true, -1, r.takeWhile Char.isDigit, r.dropWhile Char.isDigit)
        | 'E' :: '+' :: r => (true, 1, r.takeWhile Char.isDigit, r.dropWhile Char.isDigit)
        | 'E' :: r => (true, 1, r.takeWhile Char.isDigit, r.dropWhile Char.isDigit)
        | _ => (false, 1, [], r3)
      if hasExp && edigs = [] then none
      else
        let sg : Int := if neg then -1 else 1
        if ¬ hasDot && ¬ hasExp then some (.int (sg * iv), r2)
        else
          let fv := fpart.foldl (fun a c => a * 10 + digitVal c) 0
          let ev : Int := esign * (edigs.foldl (fun a c => a * 10 + digitVal c) 0 : Nat)
          let m0 : Int := sg * ((iv * 10 ^ fpart.length + fv : Nat) : Int)
          let ex : Int := ev - (fpart.length : Int)
          if 0 ≤ ex then some (.float (m0 * 10 ^ ex.toNat) 0, r4)
          else
            let (m, d) := canonF m0 ex.natAbs
            some (.float m d, r4)

mutual
/-- `json.loads` value parser (fuel-based; the fuel chosen by `json_loads`
always suffices).  The CPython extensions `NaN`/`Infinity` are not modelled
(they would need non-decimal floats); no input considered here contains
them. -/
def parseJVal : Nat → Str → Option (JVal × Str)
  | 0, _ => none
  | fuel + 1, s =>
    match s.dropWhile jsonWsB with
    | [] => none
    | 'n' :: 'u' :: 'l' :: 'l' :: r => some (.null, r)
    | 't' :: 'r' :: 'u' :: 'e' :: r => some (.bool true, r)
    | 'f' :: 'a' :: 'l' :: 's' :: 'e' :: r => some (.bool false, r)
    | '"' :: r => (parseJStr (fuel + 1) r).map (fun (t, r') => (.str t, r'))
    | '[' :: r =>
      (match r.dropWhile jsonWsB with
       | ']' :: r2 => some (.arr [], r2)
       | _ => (parseJItems fuel r).map (fun (xs, r') => (.arr xs, r')))
    | '{' :: r =>
      (match r.dropWhile jsonWsB with
       | '}' :: r2 => some (.obj [], r2)
       | _ => (parseJPairs fuel r).map (fun (ps, r') => (.obj (dictOfPairs ps), r')))
    | t => parseJNum t

/-- `json.loads` array elements after `[`. -/
def parseJItems : Nat → Str → Option (List JVal × Str)
  | 0, _ => none
  | fuel + 1, s =>
    match parseJVal fuel s with
    | none => none
    | some (v, r) =>
      match r.dropWhile jsonWsB with
      | ',' :: r' => (parseJItems fuel r').map (fun (xs, r'') => (v :: xs, r''))
      | ']' :: r' => some ([v], r')
      | _ => none

/-- `json.loads` object members after `{`. -/
def parseJPairs : Nat → Str → Option (List (Str × JVal) × Str)
  | 0, _ => none
  | fuel + 1, s =>
    match s.dropWhile jsonWsB with
    | '"' :: r =>
      (match parseJStr (fuel + 1) r with
       | none => none
       | some (k, r1) =>
         match r1.dropWhile jsonWsB with
         | ':' :: r2 =>
           (match parseJVal fuel r2 with
            | none => none
            | some (v, r3) =>
              match r3.dropWhile jsonWsB with
              | ',' :: r4 => (parseJPairs fuel r4).map (fun (ps, r5) => ((k, v) :: ps, r5))
              | '}' :: r4 => some ([(k, v)], r4)
              | _ => none)
         | _ => none)
    | _ => none
end

/-- `json.loads(s)`: parse one value and require only whitespace after it. -/
def json_loads (s : Str) : Option JVal :=
  match parseJVal (2 * s.length + 8) s with
  | some (v, rest) => if rest.dropWhile jsonWsB = [] then some v else none
  | none => none

/-- `estimate_tokens(text)` (`server.py` lines 16-21): `len(text) // 4`. -/
def estimate_tokens (text : Str) : Nat := text.length / 4

/-- Keys of a dict value (`item.keys()`; non-dicts yield `[]`, never reached
behind the all-dicts guard). -/
def keysOf : JVal → List Str
  | .obj kvs => kvs.map (fun p => p.1)
  | _ => []

/-- `isinstance(x, dict)`. -/
def isObjB : JVal → Bool
  | .obj _ => true
  | _ => false

/-- Python `set(a) == set(b)` on key lists. -/
def keySetEq (a b : List Str) : Bool :=
  a.all (fun k => b.contains k) && b.all (fun k => a.contains k)

/-- `is_uniform_array(data)` (`server.py` lines 24-45): a non-empty list of
dicts whose key sets all equal the first element's key set. -/
def is_uniform_array : JVal → Bool
  | .arr items =>
    if items.length = 0 then false
    else if ¬ (items.all isObjB) then false
    else
      match items with
      | [] => false
      | first :: _ => items.all (fun item => keySetEq (keysOf item) (keysOf first))
  | _ => false

/-- `item.get(k, '')` (`server.py` line 80). -/
def dictGet (v : JVal) (k : Str) : JVal :=
  match v with
  | .obj kvs =>
    match kvs.find? (fun p => p.1 == k) with
    | some p => p.2
    | none => .str []
  | _ => .str []

/-- The value formatting of the encoder's array path (`server.py` lines
83-88): `str(v)`, wrapped in double quotes when it contains a comma, a space
or a newline. -/
def formatValue (v : JVal) : Str :=
  let v_str := pyStr v
  if v_str.contains ',' || v_str.contains ' ' || v_str.contains '\n' then
    '"' :: v_str ++ ['"']
  else v_str

/-- The table header `name[count]{k1,...,km}:` (`server.py` line 90). -/
def mkHeader (name : Str) (count : Nat) (keys : List Str) : Str :=
  name ++ '[' :: natToDigits count ++ ']' :: '{' :: pyJoin [','] keys ++ ['}', ':']

/-- The uniform-array branch of the encoder (`server.py` lines 76-91). -/
def encodeUniform (items : List JVal) (name : Str) : Str :=
  match items with
  | [] => jsonDumpsIndent2 (.arr [])
  | first :: _ =>
    let keys := keysOf first
    let rows := items.map (fun item =>
      ' ' :: pyJoin [','] (keys.map (fun k => formatValue (dictGet item k))))
    mkHeader name items.length keys ++ '\n' :: pyJoin ['\n'] rows

/-- The list branch of the encoder (`server.py` lines 71-91 and the final
fallback of line 95 for the empty list). -/
def encodeList (items : List JVal) (name : Str) : Str :=
  if items.length > 0 then
    if ¬ is_uniform_array (.arr items) then jsonDumpsIndent2 (.arr items)
    else encodeUniform items name
  else jsonDumpsIndent2 (.arr items)

/-- `json_to_toon(data, name)` (`server.py` lines 48-95).  The source's
single recursive call — a dict with exactly one key whose value is a list —
always lands in the list branch, written here as a direct call to
`encodeList`. -/
def json_to_toon (data : JVal) (name : Str) : Str :=
  match data with
  | .obj [(key, .arr inner)] => encodeList inner key
  | .obj kvs =>
    let keys := kvs.map (fun p => p.1)
    let values := kvs.map (fun p => p.2)
    name ++ '[' :: '1' :: ']' :: '{' :: pyJoin [','] keys
      ++ '}' :: ':' :: '\n' :: ' ' :: pyJoin [','] (values.map pyStr)
  | .arr items => encodeList items name
  | other => jsonDumpsIndent2 other

/-- One step of the decoder's comma-splitting state machine
(`server.py` lines 136-144): state `(values, current, in_quotes)`. -/
def rowStep : List Str × Str × Bool → Char → List Str × Str × Bool
  | (values, current, in_quotes), c =>
    if c = '"' then (values, current, !in_quotes)
    else if c = ',' && !in_quotes then (values ++ [pyStrip current], [], in_quotes)
    else (values, current ++ [c], in_quotes)

/-- The decoder's split of one data row (`server.py` lines 132-147): run the
state machine over the stripped line, then flush a non-empty `current`. -/
def splitRow (line : Str) : List Str :=
  let st := (pyStrip line).foldl rowStep ([], [], false)
  if st.2.1 ≠ [] then st.1 ++ [pyStrip st.2.1] else st.1

/-- Object construction from one accepted row (`server.py` lines 149-160):
dict assignment field by field, values numerically coerced. -/
def mkObjPairs (fields values : List Str) : List (Str × JVal) :=
  (fields.zip values).foldl (fun acc p => dictInsert acc p.1 (coerceVal p.2)) []

/-- Handling of one line after the header (`server.py` lines 127-160): blank
lines are skipped, and a split row is accepted exactly when its field count
equals the Field Set's. -/
def acceptRow (fields : List Str) (line : Str) : Option JVal :=
  if pyStrip line = [] then none
  else
    let values := splitRow line
    if values.length = fields.length then some (.obj (mkObjPairs fields values)) else none

/-- Field Set extraction from the header line (`server.py` lines 126-129):
the substring between the first `{` and the first `}`, comma-split and
trimmed. -/
def fieldsOfHeader (header : Str) : List Str :=
  (pySplitChar ',' (pySlice header (pyIndexC '{' header + 1) (pyIndexC '}' header))).map pyStrip

/-- `toon_to_json(toon_str)` (`server.py` lines 98-164). -/
def toon_to_json (toon_str : Str) : JVal :=
  match pySplitChar '\n' (pyStrip toon_str) with
  | [] => .obj []
  | header :: rest =>
    if header.contains '{' && header.contains '}' then
      .arr (rest.filterMap (acceptRow (fieldsOfHeader header)))
    else
      match json_loads toon_str with
      | some v => v
      | none => .obj [("error".data, .str ("Invalid Toon format".data))]

/-- `parse_from_toon(toon_str)` (`server.py` lines 204-230): the decoder
never raises, so the tool always returns the parsed value with a true
success flag (the `except` branch is dead). -/
def parse_from_toon (toon_str : Str) : JVal :=
  .obj [("json".data, toon_to_json toon_str), ("success".data, .bool true)]

/-- `should_compress(data, min_items=3)`
(`compress_prompt_standalone.py` lines 139-169).  The savings comparison
`((json_tokens - toon_tokens) / json_tokens * 100) > 30` is computed by
Python in binary64; here it is the exact rational comparison
`10*(json_tokens - toon_tokens) > 3*json_tokens`.  The two agree for every
`json_tokens < 10^14` (IEEE division and multiplication are correctly
rounded, so the accumulated relative error is below `2^-51`, while at the
boundary `savings == 30` the computed value `round(100 * round(3/10))` is
exactly 30); texts long enough to break that bound cannot occur. -/
def should_compress (data : JVal) (min_items : Nat := 3) : Bool :=
  match data with
  | .arr items =>
    if items.length < min_items then false
    else if ¬ is_uniform_array (.arr items) then false
    else
      let json_tokens := estimate_tokens (jsonDumps (.arr items))
      let toon_tokens := estimate_tokens (json_to_toon (.arr items) ("data".data))
      if json_tokens > 0 then
        10 * ((json_tokens : Int) - (toon_tokens : Int)) > 3 * (json_tokens : Int)
      else false
  | _ => false

/-- Modelled from the spec: the decision procedure claim C2 describes, with
the JSON-serialised form taken with 2-space indent and acceptance when the
Toon form's estimate is *at least* 30% smaller.  This follows the claim's
words and exists only to be compared against `should_compress` above, which
follows the code. -/
def should_compress_spec (data : JVal) (min_items : Nat := 3) : Bool :=
  match data with
  | .arr items =>
    if items.length < min_items then false
    else if ¬ is_uniform_array (.arr items) then false
    else
      let json_tokens := estimate_tokens (jsonDumpsIndent2 (.arr items))
      let toon_tokens := estimate_tokens (json_to_toon (.arr items) ("data".data))
      10 * ((json_tokens : Int) - (toon_tokens : Int)) ≥ 3 * (json_tokens : Int)
  | _ => false

/-- `isinstance(x, list)`. -/
def isListB : JVal → Bool
  | .arr _ => true
  | _ => false

/-- Whether a value is a Python int. -/
def isIntB : JVal → Bool
  | .int _ => true
  | _ => false

/-- A table key that survives the header round trip: free of the structural
characters `,`, `{`, `}`, a newline, and already stripped (the decoder strips
extracted field names). -/
def goodKey (k : Str) : Bool :=
  !k.contains ',' && !k.contains '{' && !k.contains '}' && !k.contains '\n'
    && (pyStrip k == k)

/-- A cell value that survives the data-row round trip up to numeric
normalisation: an int, or a non-empty stripped string free of double quotes
(the encoder does not escape them) and newlines (they would split the
row). -/
def goodVal : JVal → Bool
  | .int _ => true
  | .str s => !s.isEmpty && (pyStrip s == s) && !s.contains '"' && !s.contains '\n'
  | _ => false

/-- An encoded cell `w` carrying content `x`: either rendered bare (then `x`
contains no quote, comma or newline) or quote-wrapped (then `x` may contain
commas); in both shapes `x` is non-empty and stripped.  This is the shape
every cell produced by the encoder for a `goodVal` value has, and it is what
the decoder's state machine inverts. -/
def CellOk (w x : Str) : Prop :=
  (x ≠ [] ∧ pyStrip x = x ∧ '"' ∉ x ∧ '\n' ∉ x) ∧
    ((w = x ∧ ',' ∉ x) ∨ w = '"' :: x ++ ['"'])

theorem contains_true_iff {s : Str} {c : Char} : s.contains c = true ↔ c ∈ s :=
  List.elem_iff

theorem contains_false_iff {s : Str} {c : Char} : s.contains c = false ↔ c ∉ s := by
  simp [List.contains, List.elem_iff]

theorem digitVal_digitChar {n : Nat} (h : n < 10) : digitVal (digitChar n) = n := by
  interval_cases n <;> decide

theorem isDigit_digitChar (n : Nat) : (digitChar n).isDigit = true := by
  unfold digitChar
  split_ifs <;> decide

theorem digit_ne {c : Char} (h : c.isDigit = true) :
    c ≠ '{' ∧ c ≠ '}' ∧ c ≠ ',' ∧ c ≠ '\n' ∧ c ≠ '"' ∧ c ≠ '-' ∧ c ≠ '+' ∧
      c ≠ '.' ∧ isPySpace c = false := by
  refine ⟨?_, ?_, ?_, ?_, ?_, ?_, ?_, ?_, ?_⟩
  all_goals first
    | (rintro rfl; exact absurd h (by decide))
    | (simp only [isPySpace]
       have h1 : c ≠ ' ' := by rintro rfl; exact absurd h (by decide)
       have h2 : c ≠ '\t' := by rintro rfl; exact absurd h (by decide)
       have h3 : c ≠ '\n' := by rintro rfl; exact absurd h (by decide)
       have h4 : c ≠ '\r' := by rintro rfl; exact absurd h (by decide)
       have h5 : c ≠ '\x0b' := by rintro rfl; exact absurd h (by decide)
       have h6 : c ≠ '\x0c' := by rintro rfl; exact absurd h (by decide)
       simp [h1, h2, h3, h4, h5, h6])

theorem length_dropWhile_le' (p : Char → Bool) (l : Str) :
    (List.dropWhile p l).length ≤ l.length := by
  induction l with
  | nil => simp
  | cons c t ih =>
    rw [List.dropWhile_cons]
    split
    · exact Nat.le_succ_of_le ih
    · simp

theorem dropWhile_idem {p : Char → Bool} {l : Str} :
    List.dropWhile p (List.dropWhile p l) = List.dropWhile p l := by
  induction l with
  | nil => rfl
  | cons c t ih =>
    by_cases h : p c = true
    · simp [List.dropWhile_cons, h, ih]
    · simp [List.dropWhile_cons, h]

theorem dropWhile_length_eq {p : Char → Bool} {l : Str}
    (h : (List.dropWhile p l).length = l.length) : List.dropWhile p l = l := by
  induction l with
  | nil => rfl
  | cons c t _ =>
    by_cases hc : p c = true
    · rw [List.dropWhile_cons, if_pos hc] at h ⊢
      simp only [List.length_cons] at h
      have h2 := length_dropWhile_le' p t
      omega
    · rw [List.dropWhile_cons, if_neg hc]

theorem pyLStrip_cons_false {c : Char} {t : Str} (h : isPySpace c = false) :
    pyLStrip (c :: t) = c :: t := by
  simp [pyLStrip, List.dropWhile_cons, h]

theorem pyLStrip_cons_head {c : Char} {t : Str} (h : pyLStrip (c :: t) = c :: t) :
    isPySpace c = false := by
  by_contra hc
  rw [Bool.not_eq_false] at hc
  rw [pyLStrip, List.dropWhile_cons, if_pos hc] at h
  have h1 := length_dropWhile_le' isPySpace t
  have h2 := congrArg List.length h
  simp only [List.length_cons] at h2
  omega

theorem pyRStrip_concat_false {c : Char} {t : Str} (h : isPySpace c = false) :
    pyRStrip (t ++ [c]) = t ++ [c] := by
  simp [pyRStrip, List.dropWhile_cons, h]

theorem pyRStrip_concat_last {c : Char} {t : Str} (h : pyRStrip (t ++ [c]) = t ++ [c]) :
    isPySpace c = false := by
  by_contra hc
  rw [Bool.not_eq_false] at hc
  rw [pyRStrip, List.reverse_append, List.reverse_singleton, List.singleton_append,
    List.dropWhile_cons, if_pos hc] at h
  have h1 := length_dropWhile_le' isPySpace t.reverse
  simp only [List.length_reverse] at h1
  have h2 := congrArg List.length h
  simp only [List.length_reverse, List.length_append, List.length_singleton] at h2
  omega

theorem pyLStrip_append_of {a b : Str} (h : pyLStrip b = b) :
    pyLStrip (a ++ b) = pyLStrip a ++ b := by
  rw [pyLStrip, List.dropWhile_append]
  split
  · next hh =>
    rw [List.isEmpty_iff] at hh
    rw [pyLStrip] at h ⊢
    rw [hh, h, List.nil_append]
  · rfl

theorem pyRStrip_append_of {a b : Str} (h : pyRStrip a = a) :
    pyRStrip (a ++ b) = a ++ pyRStrip b := by
  rw [pyRStrip, List.reverse_append, List.dropWhile_append]
  split
  · next hh =>
    rw [List.isEmpty_iff] at hh
    rw [pyRStrip] at h
    have hb : pyRStrip b = [] := by rw [pyRStrip, hh, List.reverse_nil]
    rw [hb, List.append_nil]
    exact h
  · rw [List.reverse_append, List.reverse_reverse]
    rfl

theorem pyRStrip_cons {c : Char} {t : Str} :
    pyRStrip (c :: t) =
      if pyRStrip t = [] then (if isPySpace c then [] else [c]) else c :: pyRStrip t := by
  have : (c :: t : Str) = [c] ++ t := rfl
  rw [this, pyRStrip, List.reverse_append, List.dropWhile_append]
  split
  · next hh =>
    rw [List.isEmpty_iff] at hh
    have hb : pyRStrip t = [] := by rw [pyRStrip, hh, List.reverse_nil]
    rw [if_pos hb]
    by_cases hc : isPySpace c = true
    · simp [List.dropWhile_cons, hc]
    · rw [Bool.not_eq_true] at hc
      simp [List.dropWhile_cons, hc]
  · next hh =>
    rw [List.isEmpty_iff] at hh
    have hb : pyRStrip t ≠ [] := by
      rw [pyRStrip]
      simpa using hh
    rw [if_neg hb]
    simp [pyRStrip]

theorem pyLStrip_idem {s : Str} : pyLStrip (pyLStrip s) = pyLStrip s :=
  dropWhile_idem

theorem pyRStrip_idem {s : Str} : pyRStrip (pyRStrip s) = pyRStrip s := by
  rw [pyRStrip, pyRStrip, List.reverse_reverse, dropWhile_idem]

theorem pyLStrip_pyRStrip {s : Str} (h : pyLStrip s = s) :
    pyLStrip (pyRStrip s) = pyRStrip s := by
  cases s with
  | nil => rfl
  | cons c t =>
    have hc := pyLStrip_cons_head h
    rw [pyRStrip_cons]
    split
    · simp [hc, pyLStrip]
    · exact pyLStrip_cons_false hc

theorem pyStrip_idem {s : Str} : pyStrip (pyStrip s) = pyStrip s := by
  rw [pyStrip, pyStrip, pyLStrip_pyRStrip pyLStrip_idem, pyRStrip_idem]

theorem pyStrip_eq_iff {s : Str} : pyStrip s = s ↔ pyLStrip s = s ∧ pyRStrip s = s := by
  constructor
  · intro h
    have hL : (pyLStrip s).length = s.length := by
      have h3 := congrArg List.length h
      rw [pyStrip, pyRStrip] at h3
      simp only [List.length_reverse] at h3
      have h1 := length_dropWhile_le' isPySpace (pyLStrip s).reverse
      simp only [List.length_reverse] at h1
      have h2 : (pyLStrip s).length ≤ s.length := length_dropWhile_le' isPySpace s
      omega
    have hLs : pyLStrip s = s := dropWhile_length_eq hL
    refine ⟨hLs, ?_⟩
    rw [pyStrip, hLs] at h
    exact h
  · rintro ⟨h1, h2⟩
    rw [pyStrip, h1, h2]

theorem pySplitChar_ne_nil (c : Char) (s : Str) : pySplitChar c s ≠ [] := by
  cases s with
  | nil => simp [pySplitChar]
  | cons x xs =>
    rw [pySplitChar]
    split
    · simp
    · split <;> simp

theorem pySplitChar_no {c : Char} {a : Str} (h : c ∉ a) : pySplitChar c a = [a] := by
  induction a with
  | nil => rfl
  | cons x xs ih =>
    have hx : ¬ x = c := fun hh => h (hh ▸ List.mem_cons_self x xs)
    have hxs : c ∉ xs := fun hh => h (List.mem_cons_of_mem x hh)
    rw [pySplitChar, if_neg hx, ih hxs]

theorem pySplitChar_append_cons {c : Char} {a b : Str} (h : c ∉ a) :
    pySplitChar c (a ++ c :: b) = a :: pySplitChar c b := by
  induction a with
  | nil => simp [pySplitChar]
  | cons x xs ih =>
    have hx : ¬ x = c := fun hh => h (hh ▸ List.mem_cons_self x xs)
    have hxs : c ∉ xs := fun hh => h (List.mem_cons_of_mem x hh)
    rw [List.cons_append, pySplitChar, if_neg hx, ih hxs]

theorem pyJoin_cons_cons (sep p : Str) (q : Str) (rest : List Str) :
    pyJoin sep (p :: q :: rest) = p ++ sep ++ pyJoin sep (q :: rest) := rfl

theorem pySplitChar_join {c : Char} {ps : List Str} (hne : ps ≠ [])
    (h : ∀ p ∈ ps, c ∉ p) : pySplitChar c (pyJoin [c] ps) = ps := by
  induction ps with
  | nil => exact absurd rfl hne
  | cons p rest ih =>
    cases rest with
    | nil => exact pySplitChar_no (h p (List.mem_cons_self p []))
    | cons q rest' =>
      rw [pyJoin_cons_cons]
      have hp : c ∉ p := h p (List.mem_cons_self _ _)
      have : p ++ [c] ++ pyJoin [c] (q :: rest') = p ++ c :: pyJoin [c] (q :: rest') := by
        simp
      rw [this, pySplitChar_append_cons hp,
        ih (by simp) (fun x hx => h x (List.mem_cons_of_mem p hx))]

theorem findIdx_append_none {p : Char → Bool} {a b : Str}
    (h : ∀ x ∈ a, p x = false) : (a ++ b).findIdx p = a.length + b.findIdx p := by
  induction a with
  | nil => simp
  | cons x xs ih =>
    have hx : p x = false := h x (List.mem_cons_self _ _)
    rw [List.cons_append, List.findIdx_cons, hx, ih (fun y hy => h y (List.mem_cons_of_mem x hy))]
    simp [Nat.add_assoc, Nat.add_comm 1]

theorem pyIndexC_append_cons {c : Char} {a b : Str} (h : c ∉ a) :
    pyIndexC c (a ++ c :: b) = a.length := by
  rw [pyIndexC, findIdx_append_none (fun x hx => by
    simp only [decide_eq_false_iff_not]
    exact fun hh => h (hh ▸ hx))]
  simp [List.findIdx_cons]

theorem pyIndexC_append {c : Char} {a b : Str} (h : c ∉ a) :
    pyIndexC c (a ++ b) = a.length + pyIndexC c b := by
  rw [pyIndexC, findIdx_append_none (fun x hx => by
    simp only [decide_eq_false_iff_not]
    exact fun hh => h (hh ▸ hx))]
  rfl

theorem pyStrip_of_not_space {s : Str} (h : ∀ x ∈ s, isPySpace x = false) :
    pyStrip s = s := by
  rw [pyStrip_eq_iff]
  constructor
  · cases s with
    | nil => rfl
    | cons c t => exact pyLStrip_cons_false (h c (List.mem_cons_self _ _))
  · rcases s.eq_nil_or_concat with rfl | ⟨t, c, rfl⟩
    · rfl
    · rw [List.concat_eq_append]
      exact pyRStrip_concat_false (h c (by simp))

theorem natToDigitsAux_digits : ∀ fuel n, ∀ ch ∈ natToDigitsAux fuel n, ch.isDigit = true := by
  intro fuel
  induction fuel with
  | zero => intro n ch hch; simp [natToDigitsAux] at hch
  | succ f ih =>
    intro n ch hch
    rw [natToDigitsAux] at hch
    split at hch
    · rcases List.mem_singleton.mp hch with rfl
      exact isDigit_digitChar n
    · rcases List.mem_append.mp hch with h1 | h1
      · exact ih _ ch h1
      · rcases List.mem_singleton.mp h1 with rfl
        exact isDigit_digitChar _

theorem natToDigits_digits (n : Nat) : ∀ ch ∈ natToDigits n, ch.isDigit = true :=
  natToDigitsAux_digits (n + 1) n

theorem natToDigits_ne_nil (n : Nat) : natToDigits n ≠ [] := by
  rw [natToDigits, natToDigitsAux]
  split
  · simp
  · simp

theorem natToDigitsAux_foldl :
    ∀ fuel n acc, n < 10 ^ fuel →
      (natToDigitsAux fuel n).foldl (fun a ch => a * 10 + digitVal ch) acc =
        acc * 10 ^ (natToDigitsAux fuel n).length + n := by
  intro fuel
  induction fuel with
  | zero =>
    intro n acc hn
    interval_cases n
    simp [natToDigitsAux]
  | succ f ih =>
    intro n acc hn
    rw [natToDigitsAux]
    split
    · next h10 =>
      simp [List.foldl, digitVal_digitChar h10]
    · next h10 =>
      have hdiv : n / 10 < 10 ^ f := by
        rw [Nat.div_lt_iff_lt_mul (by norm_num)]
        calc n < 10 ^ (f + 1) := hn
        _ = 10 ^ f * 10 := by rw [pow_succ]
      rw [List.foldl_append, ih (n / 10) acc hdiv]
      simp only [List.foldl, List.length_append, List.length_singleton]
      rw [digitVal_digitChar (Nat.mod_lt n (by norm_num))]
      rw [pow_succ]
      have := Nat.div_add_mod n 10
      ring_nf
      omega

theorem natToDigits_foldl (n : Nat) :
    (natToDigits n).foldl (fun a ch => a * 10 + digitVal ch) 0 = n := by
  have hb : n < 10 ^ (n + 1) := by
    calc n < 10 ^ n := Nat.lt_pow_self (by norm_num) n
    _ ≤ 10 ^ (n + 1) := Nat.pow_le_pow_right (by norm_num) (Nat.le_succ n)
  rw [natToDigits, natToDigitsAux_foldl (n + 1) n 0 hb]
  simp

theorem parseDigitsU_digits {s : Str} (h : ∀ c ∈ s, c.isDigit = true) :
    ∀ acc, parseDigitsU acc s = some (s.foldl (fun a ch => a * 10 + digitVal ch) acc) := by
  induction s with
  | nil => intro acc; rfl
  | cons c cs ih =>
    intro acc
    have hc : c.isDigit = true := h c (List.mem_cons_self _ _)
    rw [parseDigitsU.eq_def]
    simp only [if_pos hc]
    rw [ih (fun x hx => h x (List.mem_cons_of_mem c hx))]
    rfl

theorem pyIntStr_not_space (n : Int) : ∀ c ∈ pyIntStr n, isPySpace c = false := by
  cases n with
  | ofNat m =>
    intro c hc
    exact (digit_ne (natToDigits_digits m c hc)).2.2.2.2.2.2.2.2
  | negSucc m =>
    intro c hc
    rcases List.mem_cons.mp hc with rfl | hc
    · decide
    · exact (digit_ne (natToDigits_digits (m + 1) c hc)).2.2.2.2.2.2.2.2

theorem pyStrip_pyIntStr (n : Int) : pyStrip (pyIntStr n) = pyIntStr n :=
  pyStrip_of_not_space (pyIntStr_not_space n)

theorem pyIntParse_pyIntStr (n : Int) : pyIntParse (pyIntStr n) = some n := by
  cases n with
  | ofNat m =>
    rcases hnd : natToDigits m with _ | ⟨d, ds⟩
    · exact absurd hnd (natToDigits_ne_nil m)
    · have hd : d.isDigit = true := natToDigits_digits m d (by rw [hnd]; simp)
      have hstrip : pyStrip (pyIntStr (Int.ofNat m)) = d :: ds := by
        rw [pyStrip_pyIntStr]
        exact hnd
      rw [pyIntParse, hstrip, pyIntParseCore.eq_def]
      simp only [if_neg (digit_ne hd).2.2.2.2.2.1, if_neg (digit_ne hd).2.2.2.2.2.2.1,
        if_pos hd]
      rw [parseDigitsU_digits (by rw [← hnd]; exact natToDigits_digits m) 0]
      have hv := natToDigits_foldl m
      rw [hnd] at hv
      rw [hv]
      rfl
  | negSucc m =>
    rcases hnd : natToDigits (m + 1) with _ | ⟨d, ds⟩
    · exact absurd hnd (natToDigits_ne_nil (m + 1))
    · have hd : d.isDigit = true := natToDigits_digits (m + 1) d (by rw [hnd]; simp)
      have hstrip : pyStrip (pyIntStr (Int.negSucc m)) = '-' :: d :: ds := by
        rw [pyStrip_pyIntStr]
        show '-' :: natToDigits (m + 1) = '-' :: d :: ds
        rw [hnd]
      rw [pyIntParse, hstrip, pyIntParseCore.eq_def]
      simp only [reduceIte, if_pos hd]
      rw [parseDigitsU_digits (by rw [← hnd]; exact natToDigits_digits (m + 1)) 0]
      have hv := natToDigits_foldl (m + 1)
      rw [hnd] at hv
      rw [hv]
      simp [Int.negSucc_eq]

theorem pyIntStr_no_dot (n : Int) : (pyIntStr n).contains '.' = false := by
  rw [contains_false_iff]
  intro hmem
  cases n with
  | ofNat m => exact (digit_ne (natToDigits_digits m '.' hmem)).2.2.2.2.2.2.2.1 rfl
  | negSucc m =>
    rcases List.mem_cons.mp hmem with hh | hh
    · simp at hh
    · exact (digit_ne (natToDigits_digits (m + 1) '.' hh)).2.2.2.2.2.2.2.1 rfl

theorem coerceVal_pyIntStr (n : Int) : coerceVal (pyIntStr n) = .int n := by
  rw [coerceVal, pyIntStr_no_dot]
  simp [pyIntParse_pyIntStr n]

theorem rowStep_eq (vs : List Str) (cur : Str) (inq : Bool) (c : Char) :
    rowStep (vs, cur, inq) c =
      if c = '"' then (vs, cur, !inq)
      else if c = ',' && !inq then (vs ++ [pyStrip cur], [], inq)
      else (vs, cur ++ [c], inq) := rfl

theorem foldl_rowStep_noquote {x : Str} (hq : '"' ∉ x) (hcm : ',' ∉ x) :
    ∀ vs cur, x.foldl rowStep (vs, cur, false) = (vs, cur ++ x, false) := by
  induction x with
  | nil => intro vs cur; simp
  | cons c t ih =>
    intro vs cur
    have hc1 : ¬ c = '"' := fun hh => hq (hh ▸ List.mem_cons_self c t)
    have hc2 : ¬ c = ',' := fun hh => hcm (hh ▸ List.mem_cons_self c t)
    rw [List.foldl_cons, rowStep_eq, if_neg hc1, if_neg (by simp [hc2]),
      ih (fun hh => hq (List.mem_cons_of_mem c hh)) (fun hh => hcm (List.mem_cons_of_mem c hh))]
    simp

theorem foldl_rowStep_inq {x : Str} (hq : '"' ∉ x) :
    ∀ vs cur, x.foldl rowStep (vs, cur, true) = (vs, cur ++ x, true) := by
  induction x with
  | nil => intro vs cur; simp
  | cons c t ih =>
    intro vs cur
    have hc1 : ¬ c = '"' := fun hh => hq (hh ▸ List.mem_cons_self c t)
    rw [List.foldl_cons, rowStep_eq, if_neg hc1, if_neg (by simp),
      ih (fun hh => hq (List.mem_cons_of_mem c hh))]
    simp

theorem foldl_rowStep_cell {w x : Str} (h : CellOk w x) :
    ∀ vs cur, w.foldl rowStep (vs, cur, false) = (vs, cur ++ x, false) := by
  obtain ⟨⟨hne, hstrip, hq, hn⟩, hshape⟩ := h
  rcases hshape with ⟨rfl, hcm⟩ | rfl
  · exact foldl_rowStep_noquote hq hcm
  · intro vs cur
    rw [List.cons_append, List.foldl_cons, rowStep_eq, if_pos rfl]
    simp only [Bool.not_false]
    rw [List.foldl_append, foldl_rowStep_inq hq vs cur]
    simp [rowStep_eq]

theorem cellOk_strips {w x : Str} (h : CellOk w x) :
    pyLStrip w = w ∧ pyRStrip w = w ∧ w ≠ [] := by
  obtain ⟨⟨hne, hstrip, hq, hn⟩, hshape⟩ := h
  rcases hshape with ⟨rfl, _⟩ | rfl
  · have := pyStrip_eq_iff.mp hstrip
    exact ⟨this.1, this.2, hne⟩
  · refine ⟨?_, ?_, by simp⟩
    · rw [List.cons_append]
      exact pyLStrip_cons_false (by decide)
    · exact pyRStrip_concat_false (by decide)

theorem pyJoin_ne_nil {sep : Str} {ws : List Str} (hne : ws ≠ [])
    (h : ∀ w ∈ ws, w ≠ []) : pyJoin sep ws ≠ [] := by
  cases ws with
  | nil => exact absurd rfl hne
  | cons w rest =>
    cases rest with
    | nil => exact h w (List.mem_cons_self _ _)
    | cons q rest' =>
      rw [pyJoin_cons_cons]
      simp only [ne_eq, List.append_assoc, List.append_eq_nil]
      intro hh
      exact h w (List.mem_cons_self _ _) hh.1

theorem pyRStrip_join {c : Char} {ws : List Str}
    (h : ∀ w ∈ ws, pyRStrip w = w ∧ w ≠ []) :
    pyRStrip (pyJoin [c] ws) = pyJoin [c] ws := by
  induction ws with
  | nil => rfl
  | cons w rest ih =>
    cases rest with
    | nil => exact (h w (List.mem_cons_self _ _)).1
    | cons q rest' =>
      rw [pyJoin_cons_cons]
      have hw := h w (List.mem_cons_self _ _)
      have hrest : ∀ w' ∈ q :: rest', pyRStrip w' = w' ∧ w' ≠ [] :=
        fun w' hw' => h w' (List.mem_cons_of_mem w hw')
      have hjoin := ih hrest
      have hjne : pyJoin [c] (q :: rest') ≠ [] :=
        pyJoin_ne_nil (by simp) (fun w' hw' => (hrest w' hw').2)
      rw [List.append_assoc, pyRStrip_append_of hw.1]
      have hcj : ([c] ++ pyJoin [c] (q :: rest') : Str) = c :: pyJoin [c] (q :: rest') := rfl
      rw [hcj, pyRStrip_cons, hjoin, if_neg hjne]

theorem pyLStrip_join_cons {c : Char} {w : Str} {rest : List Str}
    (hw : pyLStrip w = w) (hne : w ≠ []) :
    pyLStrip (pyJoin [c] (w :: rest)) = pyJoin [c] (w :: rest) := by
  rcases w with _ | ⟨d, t⟩
  · exact absurd rfl hne
  · have hd := pyLStrip_cons_head hw
    cases rest with
    | nil => exact hw
    | cons q rest' =>
      rw [pyJoin_cons_cons]
      have hassoc : (d :: t ++ [c] ++ pyJoin [c] (q :: rest') : Str)
          = d :: (t ++ [c] ++ pyJoin [c] (q :: rest')) := by simp
      rw [hassoc]
      exact pyLStrip_cons_false hd

theorem machineJoin {ps : List (Str × Str)} (hne : ps ≠ [])
    (h : ∀ p ∈ ps, CellOk p.1 p.2) :
    ∀ vs,
      (let st := (pyJoin [','] (ps.map Prod.fst)).foldl rowStep (vs, [], false)
       if st.2.1 ≠ [] then st.1 ++ [pyStrip st.2.1] else st.1) = vs ++ ps.map Prod.snd := by
  induction ps with
  | nil => exact absurd rfl hne
  | cons p rest ih =>
    intro vs
    have hp := h p (List.mem_cons_self _ _)
    have hx := hp.1
    cases rest with
    | nil =>
      have hfold : List.foldl rowStep (vs, [], false) (pyJoin [','] (List.map Prod.fst [p]))
          = (vs, p.2, false) := by
        have := foldl_rowStep_cell hp vs []
        simpa [pyJoin] using this
      simp only [hfold]
      simp [hx.1, hx.2.1]
    | cons q rest' =>
      have hjoin : pyJoin [','] (List.map Prod.fst (p :: q :: rest'))
          = p.1 ++ (',' :: pyJoin [','] (List.map Prod.fst (q :: rest'))) := by
        simp only [List.map_cons]
        rw [pyJoin_cons_cons]
        simp
      simp only [hjoin, List.foldl_append]
      rw [foldl_rowStep_cell hp vs []]
      simp only [List.nil_append, List.foldl_cons]
      have hstep : rowStep (vs, p.2, false) ',' = (vs ++ [pyStrip p.2], [], false) := by
        rw [rowStep_eq, if_neg (show ¬ ',' = '"' by decide)]
        norm_num
      rw [hstep]
      have hih := ih (by simp) (fun p' hp' => h p' (List.mem_cons_of_mem p hp')) (vs ++ [pyStrip p.2])
      simp only at hih
      rw [hih, hx.2.1]
      simp

theorem pyStrip_space_join {ps : List (Str × Str)} (hne : ps ≠ [])
    (h : ∀ p ∈ ps, CellOk p.1 p.2) :
    pyStrip (' ' :: pyJoin [','] (ps.map Prod.fst)) = pyJoin [','] (ps.map Prod.fst) := by
  have hws : ∀ w ∈ ps.map Prod.fst, pyLStrip w = w ∧ pyRStrip w = w ∧ w ≠ [] := by
    intro w hw
    rcases List.mem_map.mp hw with ⟨p, hp, rfl⟩
    exact cellOk_strips (h p hp)
  have hmapne : ps.map Prod.fst ≠ [] := by
    cases ps with
    | nil => exact absurd rfl hne
    | cons p rest => simp
  rw [pyStrip]
  have hL : pyLStrip (' ' :: pyJoin [','] (ps.map Prod.fst))
      = pyLStrip (pyJoin [','] (ps.map Prod.fst)) := by
    rw [pyLStrip, List.dropWhile_cons, if_pos (show isPySpace ' ' = true by decide)]
    rfl
  rw [hL]
  rcases hmm : ps.map Prod.fst with _ | ⟨w, rest⟩
  · exact absurd hmm hmapne
  · have hw := hws w (by rw [hmm]; exact List.mem_cons_self _ _)
    rw [pyLStrip_join_cons hw.1 hw.2.2]
    exact pyRStrip_join (by
      intro w' hw'
      have := hws w' (by rw [hmm]; exact hw')
      exact ⟨this.2.1, this.2.2⟩)

theorem pyJoin_comma_ne_nil {ps : List (Str × Str)} (hne : ps ≠ [])
    (h : ∀ p ∈ ps, CellOk p.1 p.2) : pyJoin [','] (ps.map Prod.fst) ≠ [] := by
  apply pyJoin_ne_nil
  · cases ps with
    | nil => exact absurd rfl hne
    | cons p rest => simp
  · intro w hw
    rcases List.mem_map.mp hw with ⟨p, hp, rfl⟩
    exact (cellOk_strips (h p hp)).2.2

theorem splitRow_cells {ps : List (Str × Str)} (hne : ps ≠ [])
    (h : ∀ p ∈ ps, CellOk p.1 p.2) :
    splitRow (' ' :: pyJoin [','] (ps.map Prod.fst)) = ps.map Prod.snd := by
  rw [splitRow, pyStrip_space_join hne h]
  have := machineJoin hne h []
  simpa using this

theorem zip_self_map {l : List Str} {g : Str → Str} :
    l.zip (l.map g) = l.map (fun a => (a, g a)) := by
  induction l with
  | nil => rfl
  | cons a t ih => simp [List.zip_cons_cons, ih]

theorem foldl_dictInsert_fresh :
    ∀ (zs : List (Str × Str)) (acc : List (Str × JVal)),
      (∀ z ∈ zs, ∀ q ∈ acc, q.1 ≠ z.1) → (zs.map Prod.fst).Nodup →
      zs.foldl (fun acc p => dictInsert acc p.1 (coerceVal p.2)) acc =
        acc ++ zs.map (fun p => (p.1, coerceVal p.2)) := by
  intro zs
  induction zs with
  | nil => intro acc _ _; simp
  | cons z zs' ih =>
    intro acc hfresh hnd
    rw [List.foldl_cons]
    have hins : dictInsert acc z.1 (coerceVal z.2) = acc ++ [(z.1, coerceVal z.2)] := by
      rw [dictInsert, if_neg]
      simp only [List.any_eq_true, not_exists, not_and]
      rintro q hq
      simp only [beq_iff_eq]
      exact hfresh z (List.mem_cons_self _ _) q hq
    rw [hins]
    have hnd' : (zs'.map Prod.fst).Nodup := (List.nodup_cons.mp hnd).2
    have hz : z.1 ∉ zs'.map Prod.fst := (List.nodup_cons.mp hnd).1
    rw [ih (acc ++ [(z.1, coerceVal z.2)]) ?_ hnd']
    · simp
    · intro z' hz' q hq
      rcases List.mem_append.mp hq with hq1 | hq2
      · exact hfresh z' (List.mem_cons_of_mem z hz') q hq1
      · rcases List.mem_singleton.mp hq2 with rfl
        intro hh
        exact hz (hh ▸ List.mem_map_of_mem Prod.fst hz')

theorem mkObjPairs_eq {fields values : List Str}
    (hnd : fields.Nodup) (hlen : fields.length ≤ values.length) :
    mkObjPairs fields values = (fields.zip values).map (fun p => (p.1, coerceVal p.2)) := by
  rw [mkObjPairs]
  apply foldl_dictInsert_fresh (fields.zip values) [] (by simp)
  rw [List.map_fst_zip fields values hlen]
  exact hnd

theorem pyIndexC_cons_self {c : Char} {t : Str} : pyIndexC c (c :: t) = 0 := by
  rw [pyIndexC, List.findIdx_cons]
  simp

theorem fieldsOfHeader_decomp {pre F post : Str} (h1 : '{' ∉ pre) (h2 : '}' ∉ pre)
    (h3 : '}' ∉ F) :
    fieldsOfHeader (pre ++ ('{' :: F) ++ '}' :: post) = (pySplitChar ',' F).map pyStrip := by
  rw [fieldsOfHeader]
  have hidx1 : pyIndexC '{' (pre ++ ('{' :: F) ++ '}' :: post) = pre.length := by
    rw [List.append_assoc, pyIndexC_append h1, List.cons_append, pyIndexC_cons_self]
    simp
  have hidx2 : pyIndexC '}' (pre ++ ('{' :: F) ++ '}' :: post) = pre.length + 1 + F.length := by
    have hnm : '}' ∉ pre ++ ('{' :: F) := by
      intro hh
      rcases List.mem_append.mp hh with hh1 | hh2
      · exact h2 hh1
      · rcases List.mem_cons.mp hh2 with hh3 | hh4
        · simp at hh3
        · exact h3 hh4
    rw [pyIndexC_append_cons hnm]
    simp [Nat.add_assoc, Nat.add_comm 1]
  rw [hidx1, hidx2]
  have hslice : pySlice (pre ++ ('{' :: F) ++ '}' :: post) (pre.length + 1)
      (pre.length + 1 + F.length) = F := by
    rw [pySlice]
    have hsub : pre.length + 1 + F.length - (pre.length + 1) = F.length := by omega
    have hdecomp : pre ++ ('{' :: F) ++ '}' :: post = (pre ++ ['{']) ++ (F ++ '}' :: post) := by
      simp
    have hlen : (pre ++ ['{']).length = pre.length + 1 := by simp
    rw [hsub, hdecomp, ← hlen, List.drop_left]
    exact List.take_left F ('}' :: post)
  rw [hslice]

theorem find?_map_keys {keys : List Str} {f : Str → JVal} {k : Str}
    (hnd : keys.Nodup) (hk : k ∈ keys) :
    (keys.map (fun k' => (k', f k'))).find? (fun p => p.1 == k) = some (k, f k) := by
  induction keys with
  | nil => simp at hk
  | cons k0 rest ih =>
    rw [List.map_cons, List.find?_cons]
    by_cases hke : k0 = k
    · subst hke
      simp
    · have hbeq : ((k0, f k0).1 == k) = false := by
        simp only [beq_eq_false_iff_ne, ne_eq]
        exact hke
      rw [hbeq]
      have hkr : k ∈ rest := by
        rcases List.mem_cons.mp hk with rfl | hh
        · exact absurd rfl hke
        · exact hh
      exact ih (List.nodup_cons.mp hnd).2 hkr

theorem find?_assoc_nodup {kvs : List (Str × JVal)} {k : Str} {v : JVal}
    (hnd : (kvs.map Prod.fst).Nodup) (hmem : (k, v) ∈ kvs) :
    kvs.find? (fun p => p.1 == k) = some (k, v) := by
  induction kvs with
  | nil => simp at hmem
  | cons p rest ih =>
    rw [List.map_cons] at hnd
    rcases List.mem_cons.mp hmem with rfl | hmm
    · rw [List.find?_cons]
      simp
    · have hp : p.1 ≠ k := by
        intro hh
        have h1 : p.1 ∉ rest.map Prod.fst := (List.nodup_cons.mp hnd).1
        exact h1 (hh ▸ List.mem_map_of_mem Prod.fst hmm)
      rw [List.find?_cons]
      have hbeq : (p.1 == k) = false := by
        simp only [beq_eq_false_iff_ne, ne_eq]
        exact hp
      rw [hbeq]
      exact ih (List.nodup_cons.mp hnd).2 hmm

theorem dictGet_eq {kvs : List (Str × JVal)} {k : Str} {v : JVal}
    (hnd : (kvs.map Prod.fst).Nodup) (hmem : (k, v) ∈ kvs) :
    dictGet (.obj kvs) k = v := by
  rw [dictGet, find?_assoc_nodup hnd hmem]

theorem normalizeNumsPairs_eq_map (kvs : List (Str × JVal)) :
    normalizeNumsPairs kvs = kvs.map (fun p => (p.1, normalizeNums p.2)) := by
  induction kvs with
  | nil => rfl
  | cons p rest ih =>
    rcases p with ⟨k, v⟩
    rw [normalizeNumsPairs, ih]
    rfl

theorem normalizeNumsItems_eq_map (xs : List JVal) :
    normalizeNumsItems xs = xs.map normalizeNums := by
  induction xs with
  | nil => rfl
  | cons x rest ih => rw [normalizeNumsItems, ih]; rfl

theorem coerceVal_shape (s : Str) :
    (∃ n, coerceVal s = .int n) ∨ (∃ m d, coerceVal s = .float m d) ∨
      (∃ t, coerceVal s = .str t) := by
  rw [coerceVal]
  split
  · split
    · next m d _ => exact Or.inr (Or.inl ⟨m, d, rfl⟩)
    · exact Or.inr (Or.inr ⟨s, rfl⟩)
  · split
    · next n _ => exact Or.inl ⟨n, rfl⟩
    · exact Or.inr (Or.inr ⟨s, rfl⟩)

theorem pyEq_self_scalar {v : JVal}
    (h : (∃ n, v = .int n) ∨ (∃ m d, v = .float m d) ∨ (∃ t, v = .str t)) :
    pyEq v v = true := by
  rcases h with ⟨n, rfl⟩ | ⟨m, d, rfl⟩ | ⟨t, rfl⟩
  · simp [pyEq]
  · simp [pyEq]
  · simp [pyEq]

theorem keySetEq_iff {a b : List Str} :
    keySetEq a b = true ↔ ∀ k, k ∈ a ↔ k ∈ b := by
  simp only [keySetEq, Bool.and_eq_true, List.all_eq_true, List.contains, List.elem_iff]
  constructor
  · rintro ⟨h1, h2⟩ k
    exact ⟨h1 k, h2 k⟩
  · intro h
    exact ⟨fun k hk => (h k).mp hk, fun k hk => (h k).mpr hk⟩

theorem length_eq_of_set_eq {a b : List Str} (ha : a.Nodup) (hb : b.Nodup)
    (h : ∀ k, k ∈ a ↔ k ∈ b) : a.length = b.length :=
  ((List.perm_ext_iff_of_nodup ha hb).mpr h).length_eq

theorem pyEqSub_of {xs ys : List (Str × JVal)}
    (hfind : ∀ p ∈ xs, ∃ q, ys.find? (fun r => r.1 == p.1) = some q ∧ pyEq p.2 q.2 = true) :
    pyEqSub xs ys = true := by
  induction xs with
  | nil => rfl
  | cons p rest ih =>
    rcases p with ⟨k, v⟩
    rw [pyEqSub]
    rcases hfind (k, v) (List.mem_cons_self _ _) with ⟨q, hq, hpq⟩
    rw [hq]
    simp only [Bool.and_eq_true]
    exact ⟨hpq, ih (fun p hp => hfind p (List.mem_cons_of_mem _ hp))⟩

theorem pyEq_obj_of {xs ys : List (Str × JVal)} (hlen : xs.length = ys.length)
    (hfind : ∀ p ∈ xs, ∃ q, ys.find? (fun r => r.1 == p.1) = some q ∧ pyEq p.2 q.2 = true) :
    pyEq (.obj xs) (.obj ys) = true := by
  rw [pyEq, Bool.and_eq_true]
  exact ⟨by simp [hlen], pyEqSub_of hfind⟩

theorem pyEqItems_of {xs ys : List JVal}
    (h : List.Forall₂ (fun a b => pyEq a b = true) xs ys) : pyEqItems xs ys = true := by
  induction h with
  | nil => rfl
  | cons hab _ ih =>
    rw [pyEqItems, Bool.and_eq_true]
    exact ⟨hab, ih⟩

theorem pyEq_arr_of {xs ys : List JVal}
    (h : List.Forall₂ (fun a b => pyEq a b = true) xs ys) :
    pyEq (.arr xs) (.arr ys) = true := by
  rw [pyEq]
  exact pyEqItems_of h

theorem filterMap_eq_map_of {α β : Type} {f : α → Option β} {g : α → β} {l : List α}
    (h : ∀ x ∈ l, f x = some (g x)) : l.filterMap f = l.map g := by
  induction l with
  | nil => rfl
  | cons x rest ih =>
    rw [List.filterMap_cons, h x (List.mem_cons_self _ _), List.map_cons,
      ih (fun y hy => h y (List.mem_cons_of_mem x hy))]

theorem pyIntStr_chars {n : Int} {c : Char} (h : c ∈ pyIntStr n) :
    c.isDigit = true ∨ c = '-' := by
  cases n with
  | ofNat m => exact Or.inl (natToDigits_digits m c h)
  | negSucc m =>
    rcases List.mem_cons.mp h with rfl | hh
    · exact Or.inr rfl
    · exact Or.inl (natToDigits_digits (m + 1) c hh)

theorem pyIntStr_no_delims (n : Int) :
    ',' ∉ pyIntStr n ∧ ' ' ∉ pyIntStr n ∧ '\n' ∉ pyIntStr n ∧ '"' ∉ pyIntStr n := by
  refine ⟨?_, ?_, ?_, ?_⟩
  all_goals
    intro hmem
    rcases pyIntStr_chars hmem with hd | hd
  · exact (digit_ne hd).2.2.1 rfl
  · simp at hd
  · have := (digit_ne hd).2.2.2.2.2.2.2.2
    rw [show isPySpace ' ' = true from by decide] at this
    simp at this
  · simp at hd
  · exact (digit_ne hd).2.2.2.1 rfl
  · simp at hd
  · exact (digit_ne hd).2.2.2.2.1 rfl
  · simp at hd

theorem pyIntStr_ne_nil (n : Int) : pyIntStr n ≠ [] := by
  cases n with
  | ofNat m => exact natToDigits_ne_nil m
  | negSucc m => simp [pyIntStr]

theorem pyStr_int (n : Int) : pyStr (.int n) = pyIntStr n := rfl

theorem formatValue_int (n : Int) : formatValue (.int n) = pyIntStr n := by
  have h := pyIntStr_no_delims n
  rw [formatValue, pyStr_int, if_neg]
  simp only [Bool.or_eq_true, not_or]
  exact ⟨⟨fun hc => h.1 (contains_true_iff.mp hc),
    fun hc => h.2.1 (contains_true_iff.mp hc)⟩,
    fun hc => h.2.2.1 (contains_true_iff.mp hc)⟩

theorem goodVal_cell {v : JVal} (h : goodVal v = true) :
    CellOk (formatValue v) (pyStr v) ∧ coerceVal (pyStr v) = normalizeNums v := by
  cases v with
  | int n =>
    constructor
    · rw [formatValue_int, pyStr_int]
      have hd := pyIntStr_no_delims n
      exact ⟨⟨pyIntStr_ne_nil n, pyStrip_pyIntStr n, hd.2.2.2, hd.2.2.1⟩,
        Or.inl ⟨rfl, hd.1⟩⟩
    · rw [pyStr_int, coerceVal_pyIntStr]
      rfl
  | str s =>
    rw [goodVal] at h
    simp only [Bool.and_eq_true, Bool.not_eq_true', beq_iff_eq] at h
    obtain ⟨⟨⟨hne, hstrip⟩, hq⟩, hn⟩ := h
    have hne' : s ≠ [] := by
      intro hh
      rw [hh] at hne
      simp at hne
    have hq' : '"' ∉ s := contains_false_iff.mp hq
    have hn' : '\n' ∉ s := contains_false_iff.mp hn
    constructor
    · rw [formatValue]
      show CellOk (if (pyStr (.str s)).contains ',' || (pyStr (.str s)).contains ' '
          || (pyStr (.str s)).contains '\n' then _ else _) (pyStr (.str s))
      have hps : pyStr (.str s) = s := rfl
      rw [hps]
      split
      · exact ⟨⟨hne', hstrip, hq', hn'⟩, Or.inr rfl⟩
      · next hcond =>
        simp only [Bool.or_eq_true, not_or] at hcond
        have hcm : ',' ∉ s := contains_false_iff.mp (by
          rcases hcond with ⟨⟨h1, _⟩, _⟩
          exact Bool.not_eq_true _ ▸ (by simpa using h1))
        exact ⟨⟨hne', hstrip, hq', hn'⟩, Or.inl ⟨rfl, hcm⟩⟩
    · rfl
  | null => simp [goodVal] at h
  | bool b => simp [goodVal] at h
  | float m d => simp [goodVal] at h
  | arr xs => simp [goodVal] at h
  | obj kvs => simp [goodVal] at h

theorem pyJoin_mem {sep : Str} {ws : List Str} {c : Char} (h : c ∈ pyJoin sep ws) :
    c ∈ sep ∨ ∃ w ∈ ws, c ∈ w := by
  induction ws with
  | nil => simp [pyJoin] at h
  | cons w rest ih =>
    cases rest with
    | nil => exact Or.inr ⟨w, List.mem_cons_self _ _, h⟩
    | cons q rest' =>
      rw [pyJoin_cons_cons] at h
      rcases List.mem_append.mp h with h1 | h2
      · rcases List.mem_append.mp h1 with h3 | h4
        · exact Or.inr ⟨w, List.mem_cons_self _ _, h3⟩
        · exact Or.inl h4
      · rcases ih h2 with h5 | ⟨w', hw', hc⟩
        · exact Or.inl h5
        · exact Or.inr ⟨w', List.mem_cons_of_mem w hw', hc⟩

theorem rowStr_no_newline {r : List (Str × Str)} (hc : ∀ p ∈ r, CellOk p.1 p.2) :
    '\n' ∉ ' ' :: pyJoin [','] (r.map Prod.fst) := by
  intro hmem
  rcases List.mem_cons.mp hmem with hh | hh
  · simp at hh
  · rcases pyJoin_mem hh with hs | ⟨w, hw, hcw⟩
    · simp at hs
    · rcases List.mem_map.mp hw with ⟨p, hp, rfl⟩
      obtain ⟨⟨_, _, _, hn⟩, hshape⟩ := hc p hp
      rcases hshape with ⟨heq, _⟩ | heq
      · rw [heq] at hcw
        exact hn hcw
      · rw [heq] at hcw
        rcases List.mem_append.mp hcw with h1 | h2
        · rcases List.mem_cons.mp h1 with h3 | h4
          · simp at h3
          · exact hn h4
        · simp at h2

theorem rowStr_rstrip {r : List (Str × Str)} (hne : r ≠ [])
    (hc : ∀ p ∈ r, CellOk p.1 p.2) :
    pyRStrip (' ' :: pyJoin [','] (r.map Prod.fst)) = ' ' :: pyJoin [','] (r.map Prod.fst)
      ∧ (' ' :: pyJoin [','] (r.map Prod.fst) : Str) ≠ [] := by
  have hX : pyRStrip (pyJoin [','] (r.map Prod.fst)) = pyJoin [','] (r.map Prod.fst) := by
    apply pyRStrip_join
    intro w hw
    rcases List.mem_map.mp hw with ⟨p, hp, rfl⟩
    have := cellOk_strips (hc p hp)
    exact ⟨this.2.1, this.2.2⟩
  have hXne : pyJoin [','] (r.map Prod.fst) ≠ [] := pyJoin_comma_ne_nil hne hc
  constructor
  · rw [pyRStrip_cons, hX, if_neg hXne]
  · simp

theorem decode_table_doc
    {pre F : Str} {rowPs : List (List (Str × Str))}
    (hpre_head : ∃ d t, pre = d :: t ∧ isPySpace d = false)
    (hpre1 : '{' ∉ pre) (hpre2 : '}' ∉ pre) (hpre3 : '\n' ∉ pre)
    (hF1 : '}' ∉ F) (hF2 : '\n' ∉ F)
    (hrows_ne : rowPs ≠ [])
    (hcells : ∀ r ∈ rowPs, r ≠ [] ∧ ∀ p ∈ r, CellOk p.1 p.2)
    (hlen : ∀ r ∈ rowPs, ((pySplitChar ',' F).map pyStrip).length = r.length) :
    toon_to_json (pre ++ ('{' :: F) ++ '}' :: ':' :: '\n' ::
        pyJoin ['\n'] (rowPs.map (fun r => ' ' :: pyJoin [','] (r.map Prod.fst))))
      = .arr (rowPs.map (fun r =>
          .obj (mkObjPairs ((pySplitChar ',' F).map pyStrip) (r.map Prod.snd)))) := by
  set rows := rowPs.map (fun r => ' ' :: pyJoin [','] (r.map Prod.fst)) with hrows
  set H : Str := pre ++ ('{' :: F) ++ ['}', ':'] with hH
  set J : Str := pyJoin ['\n'] rows with hJ
  have hdoc : pre ++ ('{' :: F) ++ '}' :: ':' :: '\n' :: J = H ++ '\n' :: J := by
    rw [hH]
    simp
  have hrowfacts : ∀ row ∈ rows, pyRStrip row = row ∧ row ≠ [] := by
    intro row hrow
    rcases List.mem_map.mp hrow with ⟨r, hr, rfl⟩
    exact rowStr_rstrip (hcells r hr).1 (hcells r hr).2
  have hrowsne : rows ≠ [] := by
    rw [hrows]
    cases rowPs with
    | nil => exact absurd rfl hrows_ne
    | cons a b => simp
  have hJne : J ≠ [] := pyJoin_ne_nil hrowsne (fun w hw => (hrowfacts w hw).2)
  have hJr : pyRStrip J = J := pyRStrip_join hrowfacts
  have hHr : pyRStrip H = H := by
    rw [hH]
    have : pre ++ ('{' :: F) ++ ['}', ':'] = (pre ++ ('{' :: F) ++ ['}']) ++ [':'] := by simp
    rw [this]
    exact pyRStrip_concat_false (by decide)
  have hstrip : pyStrip (H ++ '\n' :: J) = H ++ '\n' :: J := by
    rw [pyStrip_eq_iff]
    constructor
    · rcases hpre_head with ⟨d, t, hpre, hd⟩
      have : H ++ '\n' :: J = d :: (t ++ ('{' :: F) ++ ['}', ':'] ++ '\n' :: J) := by
        rw [hH, hpre]
        simp
      rw [this]
      exact pyLStrip_cons_false hd
    · rw [pyRStrip_append_of hHr, pyRStrip_cons, hJr, if_neg hJne]
  have hHnl : '\n' ∉ H := by
    rw [hH]
    intro hmem
    rcases List.mem_append.mp hmem with h1 | h2
    · rcases List.mem_append.mp h1 with h3 | h4
      · exact hpre3 h3
      · rcases List.mem_cons.mp h4 with h5 | h6
        · simp at h5
        · exact hF2 h6
    · simp at h2
  have hsplit : pySplitChar '\n' (H ++ '\n' :: J) = H :: rows := by
    rw [pySplitChar_append_cons hHnl, hJ]
    congr 1
    apply pySplitChar_join hrowsne
    intro row hrow
    rcases List.mem_map.mp hrow with ⟨r, hr, rfl⟩
    exact rowStr_no_newline (hcells r hr).2
  have hbrace1 : H.contains '{' = true := by
    rw [contains_true_iff, hH]
    simp
  have hbrace2 : H.contains '}' = true := by
    rw [contains_true_iff, hH]
    simp
  have hflds : fieldsOfHeader H = (pySplitChar ',' F).map pyStrip := by
    rw [hH]
    have : pre ++ ('{' :: F) ++ ['}', ':'] = pre ++ ('{' :: F) ++ '}' :: [':'] := rfl
    rw [this]
    exact fieldsOfHeader_decomp hpre1 hpre2 hF1
  have haccept : ∀ r ∈ rowPs,
      acceptRow (fieldsOfHeader H) (' ' :: pyJoin [','] (r.map Prod.fst))
        = some (.obj (mkObjPairs ((pySplitChar ',' F).map pyStrip) (r.map Prod.snd))) := by
    intro r hr
    obtain ⟨hrne, hrc⟩ := hcells r hr
    rw [acceptRow, hflds]
    have hs := pyStrip_space_join hrne hrc
    rw [hs, if_neg (pyJoin_comma_ne_nil hrne hrc)]
    rw [splitRow_cells hrne hrc]
    rw [if_pos (show (List.map Prod.snd r).length
        = (List.map pyStrip (pySplitChar ',' F)).length by
      rw [List.length_map]
      exact (hlen r hr).symm)]
  rw [hdoc, toon_to_json, hstrip, hsplit]
  simp only
  rw [if_pos (by rw [hbrace1, hbrace2]; rfl)]
  rw [hrows, List.filterMap_map]
  congr 1
  apply filterMap_eq_map_of
  intro r hr
  exact haccept r hr

theorem map_eq_self_of {α : Type} {l : List α} {f : α → α} (h : ∀ x ∈ l, f x = x) :
    l.map f = l :=
  (List.map_congr_left (fun a ha => (h a ha).trans rfl)).trans (List.map_id l)

theorem natToDigits_no (n : Nat) :
    '{' ∉ natToDigits n ∧ '}' ∉ natToDigits n ∧ '\n' ∉ natToDigits n := by
  refine ⟨fun hm => ?_, fun hm => ?_, fun hm => ?_⟩
  · exact (digit_ne (natToDigits_digits n _ hm)).1 rfl
  · exact (digit_ne (natToDigits_digits n _ hm)).2.1 rfl
  · exact (digit_ne (natToDigits_digits n _ hm)).2.2.2.1 rfl

theorem goodKey_props {k : Str} (h : goodKey k = true) :
    ',' ∉ k ∧ '{' ∉ k ∧ '}' ∉ k ∧ '\n' ∉ k ∧ pyStrip k = k := by
  rw [goodKey] at h
  simp only [Bool.and_eq_true, Bool.not_eq_true', beq_iff_eq] at h
  obtain ⟨⟨⟨⟨h1, h2⟩, h3⟩, h4⟩, h5⟩ := h
  exact ⟨contains_false_iff.mp h1, contains_false_iff.mp h2, contains_false_iff.mp h3,
    contains_false_iff.mp h4, h5⟩

theorem forall₂_map_map {α β : Type} {l : List α} {f g : α → β}
    {P : β → β → Prop} (h : ∀ x ∈ l, P (f x) (g x)) :
    List.Forall₂ P (l.map f) (l.map g) := by
  induction l with
  | nil => exact List.Forall₂.nil
  | cons x rest ih =>
    exact List.Forall₂.cons (h x (List.mem_cons_self _ _))
      (ih (fun y hy => h y (List.mem_cons_of_mem x hy)))

theorem keysOf_obj (kvs : List (Str × JVal)) : keysOf (.obj kvs) = kvs.map Prod.fst := rfl

theorem is_uniform_of_mapped {firstK : List (Str × JVal)}
    {restK : List (List (Str × JVal))}
    (hks : ∀ kvs ∈ firstK :: restK,
      keySetEq (kvs.map Prod.fst) (firstK.map Prod.fst) = true) :
    is_uniform_array (.arr ((firstK :: restK).map JVal.obj)) = true := by
  rw [is_uniform_array.eq_def]
  simp only [List.map_cons]
  rw [if_neg (by simp)]
  rw [if_neg (by
    simp only [Bool.not_eq_true, Bool.not_eq_false]
    rw [List.all_eq_true]
    rintro v hv
    rcases List.mem_cons.mp hv with rfl | hv2
    · rfl
    · rcases List.mem_map.mp hv2 with ⟨kvs, _, rfl⟩
      rfl)]
  rw [List.all_eq_true]
  intro v hv
  rcases List.mem_cons.mp hv with rfl | hv2
  · exact hks firstK (List.mem_cons_self _ _)
  · rcases List.mem_map.mp hv2 with ⟨kvs, hkvs, rfl⟩
    exact hks kvs (List.mem_cons_of_mem _ hkvs)

theorem fields_of_clean_keys {keys : List Str} (hne : keys ≠ [])
    (hk : ∀ k ∈ keys, goodKey k = true) :
    (pySplitChar ',' (pyJoin [','] keys)).map pyStrip = keys := by
  rw [pySplitChar_join hne (fun p hp => (goodKey_props (hk p hp)).1)]
  exact map_eq_self_of (fun k hkk => (goodKey_props (hk k hkk)).2.2.2.2)

theorem json_to_toon_arr (items : List JVal) (name : Str) :
    json_to_toon (.arr items) name = encodeList items name := rfl

theorem pyJoin_keys_no {keys : List Str} (hk : ∀ k ∈ keys, goodKey k = true) :
    '}' ∉ pyJoin [','] keys ∧ '\n' ∉ pyJoin [','] keys := by
  constructor
  · intro hm
    rcases pyJoin_mem hm with hs | ⟨w, hw, hc⟩
    · simp at hs
    · exact (goodKey_props (hk w hw)).2.2.1 hc
  · intro hm
    rcases pyJoin_mem hm with hs | ⟨w, hw, hc⟩
    · simp at hs
    · exact (goodKey_props (hk w hw)).2.2.2.1 hc

theorem dataPre_facts (N : Nat) :
    (∃ d t, ("data".data ++ '[' :: natToDigits N ++ [']'] : Str) = d :: t ∧ isPySpace d = false)
      ∧ '{' ∉ ("data".data ++ '[' :: natToDigits N ++ [']'] : Str)
      ∧ '}' ∉ ("data".data ++ '[' :: natToDigits N ++ [']'] : Str)
      ∧ '\n' ∉ ("data".data ++ '[' :: natToDigits N ++ [']'] : Str) := by
  have hd := natToDigits_no N
  refine ⟨⟨'d', "ata".data ++ '[' :: natToDigits N ++ [']'], by simp, by decide⟩, ?_, ?_, ?_⟩
  · intro hm
    rcases List.mem_append.mp hm with h12 | h4
    · rcases List.mem_append.mp h12 with h1 | h3
      · revert h1; decide
      · rcases List.mem_cons.mp h3 with h5 | h6
        · exact absurd h5 (by decide)
        · exact hd.1 h6
    · revert h4; decide
  · intro hm
    rcases List.mem_append.mp hm with h12 | h4
    · rcases List.mem_append.mp h12 with h1 | h3
      · revert h1; decide
      · rcases List.mem_cons.mp h3 with h5 | h6
        · exact absurd h5 (by decide)
        · exact hd.2.1 h6
    · revert h4; decide
  · intro hm
    rcases List.mem_append.mp hm with h12 | h4
    · rcases List.mem_append.mp h12 with h1 | h3
      · revert h1; decide
      · rcases List.mem_cons.mp h3 with h5 | h6
        · exact absurd h5 (by decide)
        · exact hd.2.2 h6
    · revert h4; decide

theorem rowStep_values_stripped :
    ∀ (l : Str) (vs : List Str) (cur : Str) (b : Bool),
      (∀ u ∈ vs, pyStrip u = u) →
      ∀ u ∈ (l.foldl rowStep (vs, cur, b)).1, pyStrip u = u := by
  intro l
  induction l with
  | nil => intro vs cur b h u hu; exact h u hu
  | cons c t ih =>
    intro vs cur b h u hu
    rw [List.foldl_cons, rowStep_eq] at hu
    split at hu
    · exact ih vs cur (!b) h u hu
    · split at hu
      · refine ih (vs ++ [pyStrip cur]) [] b ?_ u hu
        intro w hw
        rcases List.mem_append.mp hw with h1 | h2
        · exact h w h1
        · rcases List.mem_singleton.mp h2 with rfl
          exact pyStrip_idem
      · exact ih vs (cur ++ [c]) b h u hu

theorem is_uniform_array_cons (first : JVal) (rest : List JVal) :
    is_uniform_array (.arr (first :: rest)) =
      (if (first :: rest).length = 0 then false
       else if ¬ ((first :: rest).all isObjB) then false
       else (first :: rest).all (fun item => keySetEq (keysOf item) (keysOf first))) := rfl

/-- C3: `is_uniform_array(value)` returns true iff `value` is a non-empty
list, every element is a mapping, and every element's key set is set-equal
to the first element's key set; in particular `is_uniform_array([])` is
false, `is_uniform_array([{"a":1}])` is true, and
`is_uniform_array([{"a":1},{"b":2}])` is false (`server.py` lines 24-45). -/
theorem claim_C3 :
    (∀ v : JVal, is_uniform_array v = true ↔
      ∃ first rest, v = .arr (first :: rest) ∧
        (∀ it ∈ first :: rest, ∃ kvs, it = JVal.obj kvs) ∧
        (∀ it ∈ first :: rest, ∀ k : Str, k ∈ keysOf it ↔ k ∈ keysOf first)) ∧
    is_uniform_array (.arr []) = false ∧
    is_uniform_array (.arr [.obj [("a".data, .int 1)]]) = true ∧
    is_uniform_array (.arr [.obj [("a".data, .int 1)], .obj [("b".data, .int 2)]]) = false := by
  refine ⟨?_, by decide, by decide, by decide⟩
  intro v
  constructor
  · intro h
    cases v with
    | arr items =>
      cases items with
      | nil => simp [is_uniform_array] at h
      | cons first rest =>
        rw [is_uniform_array_cons] at h
        rw [if_neg (by simp)] at h
        by_cases hobj : (first :: rest).all isObjB = true
        · rw [if_neg (by simp [hobj])] at h
          rw [List.all_eq_true] at h hobj
          refine ⟨first, rest, rfl, ?_, ?_⟩
          · intro it hit
            have := hobj it hit
            cases it with
            | obj kvs => exact ⟨kvs, rfl⟩
            | null => simp [isObjB] at this
            | bool b => simp [isObjB] at this
            | int n => simp [isObjB] at this
            | float m d => simp [isObjB] at this
            | str s => simp [isObjB] at this
            | arr xs => simp [isObjB] at this
          · intro it hit k
            exact (keySetEq_iff.mp (h it hit)) k
        · rw [if_pos (by simpa using hobj)] at h
          exact absurd h (by simp)
    | null => simp [is_uniform_array] at h
    | bool b => simp [is_uniform_array] at h
    | int n => simp [is_uniform_array] at h
    | float m d => simp [is_uniform_array] at h
    | str s => simp [is_uniform_array] at h
    | obj kvs => simp [is_uniform_array] at h
  · rintro ⟨first, rest, rfl, hobj, hkeys⟩
    rw [is_uniform_array_cons]
    rw [if_neg (by simp)]
    have hall : (first :: rest).all isObjB = true := by
      rw [List.all_eq_true]
      intro it hit
      rcases hobj it hit with ⟨kvs, rfl⟩
      rfl
    rw [if_neg (by simp [hall])]
    rw [List.all_eq_true]
    intro it hit
    exact keySetEq_iff.mpr (hkeys it hit)

/-- C7: for a mapping with exactly one key whose value is a list,
`json_to_toon(mapping, name)` equals `json_to_toon(inner_list, key)` — the
supplied name is discarded in favour of the wrapper key
(`server.py` lines 59-64). -/
theorem claim_C7 : ∀ (key : Str) (inner : List JVal) (name : Str),
    json_to_toon (.obj [(key, .arr inner)]) name = json_to_toon (.arr inner) key :=
  fun _ _ _ => rfl

/-- C8: `estimate_tokens(text)` is `len(text) // 4` and is monotonically
non-decreasing in input length (`server.py` lines 16-21). -/
theorem claim_C8 :
    (∀ text : Str, estimate_tokens text = text.length / 4) ∧
    (∀ s t : Str, s.length ≤ t.length → estimate_tokens s ≤ estimate_tokens t) :=
  ⟨fun _ => rfl, fun _ _ h => Nat.div_le_div_right h⟩

theorem claim_C8_witness :
    estimate_tokens ("abc".data) ≤ estimate_tokens ("abcdefgh".data) :=
  claim_C8.2 ("abc".data) ("abcdefgh".data) (by decide)

/-- C6: decode never raises: when the (stripped) first line lacks a `{`/`}`
pair, it falls back to `json.loads` on the whole text, and when that fails
too it returns the structured value `{"error": "Invalid Toon format"}`; the
`parse_from_toon` tool wraps the always-total decoder in a structured result
with a success flag, never an exception (`server.py` lines 108-124,
204-230). -/
theorem claim_C6 :
    (∀ (s header : Str) (rest : List Str),
      pySplitChar '\n' (pyStrip s) = header :: rest →
      ¬ (header.contains '{' = true ∧ header.contains '}' = true) →
      ((∃ v, json_loads s = some v ∧ toon_to_json s = v) ∨
        (json_loads s = none ∧
          toon_to_json s = .obj [("error".data, .str ("Invalid Toon format".data))]))) ∧
    (∀ s : Str, parse_from_toon s
      = .obj [("json".data, toon_to_json s), ("success".data, .bool true)]) := by
  constructor
  · intro s header rest hsplit hnb
    rw [toon_to_json, hsplit]
    simp only
    rw [if_neg (fun hb => hnb (Bool.and_eq_true _ _ ▸ hb))]
    cases hjl : json_loads s with
    | some v => exact Or.inl ⟨v, rfl, rfl⟩
    | none => exact Or.inr ⟨rfl, rfl⟩
  · intro s
    rfl

theorem claim_C6_witness :
    toon_to_json ("nonsense".data) = .obj [("error".data, .str ("Invalid Toon format".data))] := by
  have h := claim_C6.1 ("nonsense".data) ("nonsense".data) [] (by decide) (by decide)
  rcases h with ⟨v, hv, _⟩ | ⟨_, h2⟩
  · rw [show json_loads ("nonsense".data) = none from rfl] at hv
    cases hv
  · exact h2

theorem claim_C3_witness :
    is_uniform_array (.arr [.obj [("a".data, .int 1)], .obj [("a".data, .int 2)]]) = true :=
  (claim_C3.1 _).mpr ⟨.obj [("a".data, .int 1)], [.obj [("a".data, .int 2)]], rfl,
    (by
      intro it hit
      rcases List.mem_cons.mp hit with rfl | h2
      · exact ⟨_, rfl⟩
      · rcases List.mem_singleton.mp h2 with rfl
        exact ⟨_, rfl⟩),
    (by
      intro it hit k
      rcases List.mem_cons.mp hit with rfl | h2
      · exact Iff.rfl
      · rcases List.mem_singleton.mp h2 with rfl
        exact Iff.rfl)⟩

/-- C4: in the encoder's Toon output a value is quote-wrapped iff its text
form contains a comma, a space, or a newline; this wrapping is applied only
on the multi-row (uniform-array) path, never on the single-row (mapping)
path, whose cells are emitted as bare `str(v)` (`server.py` lines 66-69 and
80-92). -/
theorem claim_C4 :
    (∀ v : JVal,
      formatValue v = '"' :: pyStr v ++ ['"'] ↔
        ((pyStr v).contains ',' || (pyStr v).contains ' ' || (pyStr v).contains '\n') = true) ∧
    (∀ v : JVal,
      ((pyStr v).contains ',' || (pyStr v).contains ' ' || (pyStr v).contains '\n') = false →
        formatValue v = pyStr v) ∧
    (∀ (p q : Str × JVal) (rest : List (Str × JVal)) (name : Str),
      json_to_toon (.obj (p :: q :: rest)) name =
        name ++ '[' :: '1' :: ']' :: '{' :: pyJoin [','] ((p :: q :: rest).map (fun r => r.1))
          ++ '}' :: ':' :: '\n' :: ' ' :: pyJoin [','] (((p :: q :: rest).map (fun r => r.2)).map pyStr)) ∧
    (∀ (first : JVal) (rest : List JVal) (name : Str),
      is_uniform_array (.arr (first :: rest)) = true →
      json_to_toon (.arr (first :: rest)) name =
        mkHeader name (first :: rest).length (keysOf first) ++ '\n' ::
          pyJoin ['\n'] ((first :: rest).map (fun item =>
            ' ' :: pyJoin [','] ((keysOf first).map (fun k => formatValue (dictGet item k)))))) ∧
    json_to_toon (.obj [("a".data, .str ("x y".data))]) ("data".data)
      = "data".data ++ '[' :: '1' :: ']' :: '{' :: "a".data
          ++ '}' :: ':' :: '\n' :: ' ' :: "x y".data := by
  refine ⟨?_, ?_, ?_, ?_, by decide⟩
  · intro v
    constructor
    · intro h
      by_cases hc : ((pyStr v).contains ',' || (pyStr v).contains ' '
          || (pyStr v).contains '\n') = true
      · exact hc
      · exfalso
        rw [formatValue, if_neg (by simp [Bool.not_eq_true] at hc ⊢; exact hc)] at h
        have := congrArg List.length h
        simp at this
        omega
    · intro h
      rw [formatValue, if_pos h]
  · intro v h
    rw [formatValue, if_neg (by rw [h]; simp)]
  · intro p q rest name
    rcases p with ⟨k1, v1⟩
    cases v1 <;> rfl
  · intro first rest name hu
    rw [json_to_toon_arr, encodeList, if_pos (by simp), if_neg (by simp [hu])]
    rfl

theorem claim_C4_witness :
    formatValue (.str ("a b".data)) = '"' :: pyStr (.str ("a b".data)) ++ ['"'] :=
  (claim_C4.1 (.str ("a b".data))).mpr (by decide)

/-- C10: the decoder strips leading and trailing whitespace from every field
value it produces, including the contents of quoted fields, so a string
value with leading or trailing spaces does not survive
`decode(encode(...))` even though the encoder quotes it
(`server.py` lines 132-147). -/
theorem claim_C10 :
    (∀ line : Str, ∀ v ∈ splitRow line, pyStrip v = v) ∧
    toon_to_json (json_to_toon (.arr [.obj [("a".data, .str (" x".data))]]) ("data".data))
      = .arr [.obj [("a".data, .str ("x".data))]] ∧
    (" x".data : Str) ≠ ("x".data : Str) := by
  refine ⟨?_, by rfl, by decide⟩
  intro line v hv
  rw [splitRow] at hv
  split at hv
  · rcases List.mem_append.mp hv with h1 | h2
    · exact rowStep_values_stripped (pyStrip line) [] [] false (by simp) v h1
    · rcases List.mem_singleton.mp h2 with rfl
      exact pyStrip_idem
  · exact rowStep_values_stripped (pyStrip line) [] [] false (by simp) v hv

theorem claim_C10_witness : pyStrip ("ab".data) = "ab".data :=
  claim_C10.1 (" ab".data) ("ab".data) (by decide)

theorem should_compress_arr (items : List JVal) (min_items : Nat) :
    should_compress (.arr items) min_items =
      (if items.length < min_items then false
       else if ¬ is_uniform_array (.arr items) then false
       else if estimate_tokens (jsonDumps (.arr items)) > 0 then
         decide (10 * ((estimate_tokens (jsonDumps (.arr items)) : Int)
             - (estimate_tokens (json_to_toon (.arr items) ("data".data)) : Int))
           > 3 * (estimate_tokens (jsonDumps (.arr items)) : Int))
       else false) := rfl

/-- C2 (amended): `should_compress(value, min_items=3)` returns false for
every non-list value, for every list with fewer than `min_items` elements,
and for every non-uniform list; otherwise it compares `estimate_tokens` of
the *compact* JSON serialisation (`json.dumps(value)`, separators `", "` /
`": "`, no indent — not the 2-space-indent form the claim names) with
`estimate_tokens` of the Toon-encoded form and returns true exactly when the
Toon form's estimate is *strictly more than* 30% smaller
(`compress_prompt_standalone.py` lines 139-169). -/
theorem claim_C2_amended : ∀ (v : JVal) (min_items : Nat),
    (isListB v = false → should_compress v min_items = false) ∧
    (∀ items, v = .arr items → items.length < min_items →
      should_compress v min_items = false) ∧
    (∀ items, v = .arr items → is_uniform_array v = false →
      should_compress v min_items = false) ∧
    (∀ items, v = .arr items → min_items ≤ items.length → is_uniform_array v = true →
      (should_compress v min_items = true ↔
        10 * ((estimate_tokens (jsonDumps v) : Int)
            - (estimate_tokens (json_to_toon v ("data".data)) : Int))
          > 3 * (estimate_tokens (jsonDumps v) : Int))) := by
  intro v min_items
  refine ⟨?_, ?_, ?_, ?_⟩
  · intro h
    cases v with
    | arr items => simp [isListB] at h
    | null => rfl
    | bool b => rfl
    | int n => rfl
    | float m d => rfl
    | str s => rfl
    | obj kvs => rfl
  · rintro items rfl hlt
    rw [should_compress_arr, if_pos hlt]
  · rintro items rfl hu
    rw [should_compress_arr]
    by_cases hlt : items.length < min_items
    · rw [if_pos hlt]
    · rw [if_neg hlt, if_pos (by rw [hu]; simp)]
  · rintro items rfl hge hu
    rw [should_compress_arr, if_neg (by omega), if_neg (by rw [hu]; simp)]
    by_cases hj : estimate_tokens (jsonDumps (.arr items)) > 0
    · rw [if_pos hj]
      exact decide_eq_true_iff
    · rw [if_neg hj]
      constructor
      · intro hfalse
        cases hfalse
      · intro hp
        exfalso
        have hj0 : estimate_tokens (jsonDumps (.arr items)) = 0 := by omega
        rw [hj0] at hp
        have ht : (0:Int) ≤ (estimate_tokens (json_to_toon (.arr items) ("data".data)) : Int) :=
          Int.ofNat_nonneg _
        omega

theorem claim_C2_witness :
    should_compress (.arr [
      .obj [("id".data, .int 1), ("name".data, .str ("Alice".data)), ("role".data, .str ("admin".data))],
      .obj [("id".data, .int 2), ("name".data, .str ("Bob".data)), ("role".data, .str ("user".data))],
      .obj [("id".data, .int 3), ("name".data, .str ("Carol".data)), ("role".data, .str ("user".data))],
      .obj [("id".data, .int 4), ("name".data, .str ("Dave".data)), ("role".data, .str ("user".data))]]) 3
      = true :=
  ((claim_C2_amended (.arr [
      .obj [("id".data, .int 1), ("name".data, .str ("Alice".data)), ("role".data, .str ("admin".data))],
      .obj [("id".data, .int 2), ("name".data, .str ("Bob".data)), ("role".data, .str ("user".data))],
      .obj [("id".data, .int 3), ("name".data, .str ("Carol".data)), ("role".data, .str ("user".data))],
      .obj [("id".data, .int 4), ("name".data, .str ("Dave".data)), ("role".data, .str ("user".data))]]) 3).2.2.2
    _ rfl (by decide) (by decide)).mpr (by decide)

theorem claim_C2_counterexample :
    is_uniform_array (.arr (List.replicate 3 (.obj [("k".data, .str (List.replicate 20 'a'))]))) = true
    ∧ (List.replicate 3 (JVal.obj [("k".data, .str (List.replicate 20 'a'))])).length = 3
    ∧ should_compress_spec
        (.arr (List.replicate 3 (.obj [("k".data, .str (List.replicate 20 'a'))]))) 3 = true
    ∧ should_compress
        (.arr (List.replicate 3 (.obj [("k".data, .str (List.replicate 20 'a'))]))) 3 = false := by
  refine ⟨by decide, by decide, by decide, by decide⟩

theorem mem_pyLStrip {c : Char} {s : Str} (h : c ∈ pyLStrip s) : c ∈ s :=
  (List.dropWhile_sublist isPySpace).mem h

/-- C5: on the valid-header path the decoder accepts a data row into the
result iff its split field count exactly equals the Field Set's count (blank
lines and short or long rows are silently dropped, with no error), and the
element count in the header is never validated: decoding the same fields and
body under two different header counts yields identical results
(`server.py` lines 126-164). -/
theorem claim_C5 :
    (∀ (s header : Str) (rest : List Str),
      pySplitChar '\n' (pyStrip s) = header :: rest →
      header.contains '{' = true → header.contains '}' = true →
      toon_to_json s = .arr (rest.filterMap (acceptRow (fieldsOfHeader header)))) ∧
    (∀ (fields : List Str) (line : Str),
      (acceptRow fields line).isSome = true ↔
        (pyStrip line ≠ [] ∧ (splitRow line).length = fields.length)) ∧
    (∀ (name F body : Str) (c1 c2 : Nat),
      '{' ∉ name → '}' ∉ name → '\n' ∉ name → '}' ∉ F → '\n' ∉ F →
      toon_to_json (name ++ '[' :: natToDigits c1 ++ ']' :: '{' :: F ++ '}' :: ':' :: '\n' :: body)
        = toon_to_json (name ++ '[' :: natToDigits c2 ++ ']' :: '{' :: F ++ '}' :: ':' :: '\n' :: body)) := by
  have hpart1 : ∀ (s header : Str) (rest : List Str),
      pySplitChar '\n' (pyStrip s) = header :: rest →
      header.contains '{' = true → header.contains '}' = true →
      toon_to_json s = .arr (rest.filterMap (acceptRow (fieldsOfHeader header))) := by
    intro s header rest hsplit hb1 hb2
    rw [toon_to_json, hsplit]
    simp only
    rw [if_pos (by rw [hb1, hb2]; rfl)]
  refine ⟨hpart1, ?_, ?_⟩
  · intro fields line
    rw [acceptRow]
    by_cases hb : pyStrip line = []
    · rw [if_pos hb]
      simp [hb]
    · rw [if_neg hb]
      by_cases hl : (splitRow line).length = fields.length
      · rw [if_pos hl]
        simp [hb, hl]
      · rw [if_neg hl]
        simp [hb, hl]
  · intro name F body c1 c2 hn1 hn2 hn3 hF1 hF2
    have key : ∀ c : Nat, ∃ fields rest,
        (toon_to_json (name ++ '[' :: natToDigits c ++ ']' :: '{' :: F ++ '}' :: ':' :: '\n' :: body)
          = .arr (rest.filterMap (acceptRow fields)))
        ∧ fields = (pySplitChar ',' F).map pyStrip
        ∧ rest = (if pyRStrip body = [] then ([] : List Str)
                  else pySplitChar '\n' (pyRStrip body)) := by
      intro c
      have hdig := natToDigits_no c
      set N := pyLStrip name with hN
      set pre : Str := N ++ ('[' :: natToDigits c) ++ [']'] with hpre
      set HDR : Str := pre ++ ('{' :: F) ++ '}' :: [':'] with hHDR
      have hNsub : ∀ x, x ∈ N → x ∈ name := fun x hx => mem_pyLStrip hx
      have hpre1 : '{' ∉ pre := by
        intro hm
        rcases List.mem_append.mp hm with h12 | h4
        · rcases List.mem_append.mp h12 with h1 | h3
          · exact hn1 (hNsub _ h1)
          · rcases List.mem_cons.mp h3 with h5 | h6
            · exact absurd h5 (by decide)
            · exact hdig.1 h6
        · revert h4
          decide
      have hpre2 : '}' ∉ pre := by
        intro hm
        rcases List.mem_append.mp hm with h12 | h4
        · rcases List.mem_append.mp h12 with h1 | h3
          · exact hn2 (hNsub _ h1)
          · rcases List.mem_cons.mp h3 with h5 | h6
            · exact absurd h5 (by decide)
            · exact hdig.2.1 h6
        · revert h4
          decide
      have hpre3 : '\n' ∉ pre := by
        intro hm
        rcases List.mem_append.mp hm with h12 | h4
        · rcases List.mem_append.mp h12 with h1 | h3
          · exact hn3 (hNsub _ h1)
          · rcases List.mem_cons.mp h3 with h5 | h6
            · exact absurd h5 (by decide)
            · exact hdig.2.2 h6
        · revert h4
          decide
      have hHDRnl : '\n' ∉ HDR := by
        intro hm
        rcases List.mem_append.mp hm with h12 | h4
        · rcases List.mem_append.mp h12 with h1 | h3
          · exact hpre3 h1
          · rcases List.mem_cons.mp h3 with h5 | h6
            · exact absurd h5 (by decide)
            · exact hF2 h6
        · revert h4
          decide
      have hdocL : pyLStrip (name ++ '[' :: natToDigits c ++ ']' :: '{' :: F ++ '}' :: ':' :: '\n' :: body)
          = HDR ++ '\n' :: body := by
        have h1 : (name ++ '[' :: natToDigits c ++ ']' :: '{' :: F ++ '}' :: ':' :: '\n' :: body : Str)
            = name ++ ('[' :: (natToDigits c ++ ']' :: '{' :: (F ++ '}' :: ':' :: '\n' :: body))) := by
          simp
        rw [h1, pyLStrip_append_of (pyLStrip_cons_false (by decide))]
        rw [hHDR, hpre, hN]
        simp
      have hHDRr : pyRStrip HDR = HDR := by
        have h2 : HDR = (pre ++ ('{' :: F) ++ ['}']) ++ [':'] := by
          rw [hHDR]
          simp
        rw [h2]
        exact pyRStrip_concat_false (by decide)
      have hdocR : pyStrip (name ++ '[' :: natToDigits c ++ ']' :: '{' :: F ++ '}' :: ':' :: '\n' :: body)
          = HDR ++ pyRStrip ('\n' :: body) := by
        rw [pyStrip, hdocL, pyRStrip_append_of hHDRr]
      rcases hbody : pyRStrip body with _ | ⟨b0, brest⟩
      · have hRnil : pyRStrip ('\n' :: body) = [] := by
          rw [pyRStrip_cons, if_pos hbody]
          decide
        refine ⟨fieldsOfHeader HDR, [], ?_, ?_, by simp⟩
        · apply hpart1
          · rw [hdocR, hRnil, List.append_nil, pySplitChar_no hHDRnl]
          · rw [contains_true_iff, hHDR]
            simp
          · rw [contains_true_iff, hHDR]
            simp
        · rw [hHDR]
          exact fieldsOfHeader_decomp hpre1 hpre2 hF1
      · have hRcons : pyRStrip ('\n' :: body) = '\n' :: pyRStrip body := by
          rw [pyRStrip_cons, if_neg (by rw [hbody]; simp)]
        refine ⟨fieldsOfHeader HDR, pySplitChar '\n' (pyRStrip body), ?_, ?_, ?_⟩
        · apply hpart1
          · rw [hdocR, hRcons, pySplitChar_append_cons hHDRnl]
          · rw [contains_true_iff, hHDR]
            simp
          · rw [contains_true_iff, hHDR]
            simp
        · rw [hHDR]
          exact fieldsOfHeader_decomp hpre1 hpre2 hF1
        · rw [hbody]
          simp
    rcases key c1 with ⟨f1, r1, he1, hf1, hr1⟩
    rcases key c2 with ⟨f2, r2, he2, hf2, hr2⟩
    rw [he1, he2, hf1, hf2, hr1, hr2]

theorem claim_C5_witness :
    toon_to_json ("users".data ++ '[' :: natToDigits 2 ++ ']' :: '{' :: "id,name".data
        ++ '}' :: ':' :: '\n' :: " 1,Alice".data)
      = toon_to_json ("users".data ++ '[' :: natToDigits 99 ++ ']' :: '{' :: "id,name".data
        ++ '}' :: ':' :: '\n' :: " 1,Alice".data) :=
  claim_C5.2.2 ("users".data) ("id,name".data) (" 1,Alice".data) 2 99
    (by decide) (by decide) (by decide) (by decide) (by decide)

theorem json_to_toon_obj_multi (p q : Str × JVal) (rest : List (Str × JVal)) (name : Str) :
    json_to_toon (.obj (p :: q :: rest)) name =
      name ++ '[' :: '1' :: ']' :: '{' :: pyJoin [','] ((p :: q :: rest).map (fun r => r.1))
        ++ '}' :: ':' :: '\n' :: ' ' :: pyJoin [','] (((p :: q :: rest).map (fun r => r.2)).map pyStr) := by
  rcases p with ⟨k1, v1⟩
  cases v1 <;> rfl

theorem cellOk_int (n : Int) : CellOk (pyStr (.int n)) (pyStr (.int n)) := by
  rw [pyStr_int]
  have h := pyIntStr_no_delims n
  exact ⟨⟨pyIntStr_ne_nil n, pyStrip_pyIntStr n, h.2.2.2, h.2.2.1⟩, Or.inl ⟨rfl, h.1⟩⟩

/-- C9 counterexample: for the two-key mapping `{"a": "", "b": ""}` the
decoder drops the single encoded row (its two empty fields collapse to one
split value), so `decode(encode(mapping))` is the empty list — not a
one-element list containing the mapping, not even up to Python `==`. -/
theorem claim_C9_counterexample :
    toon_to_json (json_to_toon (.obj [("a".data, .str []), ("b".data, .str [])]) ("data".data))
      = .arr []
    ∧ pyEq (toon_to_json (json_to_toon
          (.obj [("a".data, .str []), ("b".data, .str [])]) ("data".data)))
        (.arr [.obj [("a".data, .str []), ("b".data, .str [])]]) = false :=
  ⟨rfl, by decide⟩

/-- C9 (amended): whenever the (stripped) first line contains both `{` and
`}`, decode returns a list (possibly empty) — never a mapping; and for every
mapping with two or more keys, duplicate-free round-trippable keys and
integer values, encoding as a single-row table and then decoding yields
exactly the one-element list containing the mapping, never the mapping
itself (`server.py` lines 59-69, 126-164).  (As stated the claim is false:
for `{"a": "", "b": ""}` the decoded list is empty, see the
counterexample.) -/
theorem claim_C9_amended :
    (∀ (s header : Str) (rest : List Str),
      pySplitChar '\n' (pyStrip s) = header :: rest →
      header.contains '{' = true → header.contains '}' = true →
      ∃ items, toon_to_json s = .arr items) ∧
    (∀ kvs : List (Str × JVal),
      2 ≤ kvs.length →
      (kvs.map Prod.fst).Nodup →
      (∀ k ∈ kvs.map Prod.fst, goodKey k = true) →
      (∀ p ∈ kvs, isIntB p.2 = true) →
      toon_to_json (json_to_toon (.obj kvs) ("data".data)) = .arr [.obj kvs]) := by
  constructor
  · intro s header rest hsplit hb1 hb2
    rw [toon_to_json, hsplit]
    simp only
    rw [if_pos (by rw [hb1, hb2]; rfl)]
    exact ⟨_, rfl⟩
  · intro kvs hlen hnd hkeys hints
    have hvals : ∀ p ∈ kvs, ∃ n : Int, p.2 = .int n := by
      intro p hp
      have := hints p hp
      cases hv : p.2 with
      | int n => exact ⟨n, rfl⟩
      | null => rw [hv] at this; simp [isIntB] at this
      | bool b => rw [hv] at this; simp [isIntB] at this
      | float m d => rw [hv] at this; simp [isIntB] at this
      | str s => rw [hv] at this; simp [isIntB] at this
      | arr xs => rw [hv] at this; simp [isIntB] at this
      | obj o => rw [hv] at this; simp [isIntB] at this
    rcases kvs with _ | ⟨p1, kvs1⟩
    · simp at hlen
    rcases kvs1 with _ | ⟨p2, rest⟩
    · simp at hlen
    rw [json_to_toon_obj_multi]
    set kvs := p1 :: p2 :: rest with hkvs
    set keys := kvs.map Prod.fst with hks
    set F : Str := pyJoin [','] keys with hF
    set ps := kvs.map (fun p => (pyStr p.2, pyStr p.2)) with hps
    have hkeysne : keys ≠ [] := by rw [hks, hkvs]; simp
    have hpsyields : ps.map Prod.fst = (kvs.map (fun r => r.2)).map pyStr := by
      rw [hps]
      simp [List.map_map]
    have hcellok : ∀ p ∈ ps, CellOk p.1 p.2 := by
      intro p hp
      rcases List.mem_map.mp hp with ⟨q, hq, rfl⟩
      rcases hvals q hq with ⟨n, hn⟩
      simp only [hn]
      exact cellOk_int n
    have hdoc : ("data".data ++ '[' :: '1' :: ']' :: '{' :: F
          ++ '}' :: ':' :: '\n' :: ' ' :: pyJoin [','] ((kvs.map (fun r => r.2)).map pyStr) : Str)
        = ("data".data ++ ['[', '1', ']']) ++ ('{' :: F) ++ '}' :: ':' :: '\n' ::
            pyJoin ['\n'] ([ps].map (fun r => ' ' :: pyJoin [','] (r.map Prod.fst))) := by
      rw [← hpsyields]
      simp [pyJoin]
    rw [hdoc]
    rw [decode_table_doc
      (by exact ⟨'d', "ata".data ++ ['[', '1', ']'], by simp, by decide⟩)
      (by decide) (by decide) (by decide)
      (pyJoin_keys_no hkeys).1 (pyJoin_keys_no hkeys).2
      (by simp)
      (by
        intro r hr
        rcases List.mem_singleton.mp hr with rfl
        refine ⟨by rw [hps, hkvs]; simp, hcellok⟩)
      (by
        intro r hr
        rcases List.mem_singleton.mp hr with rfl
        rw [fields_of_clean_keys hkeysne hkeys, hks, hps]
        simp)]
    rw [fields_of_clean_keys hkeysne hkeys]
    simp only [List.map_cons, List.map_nil]
    congr 1
    congr 1
    have hsnd : ps.map Prod.snd = kvs.map (fun p => pyStr p.2) := by
      rw [hps]
      simp
    rw [hsnd, hks, mkObjPairs_eq hnd (by rw [hks]; simp), List.zip_map', List.map_map]
    congr 1
    apply map_eq_self_of
    intro p hp
    rcases hvals p hp with ⟨n, hn⟩
    show (p.1, coerceVal (pyStr p.2)) = p
    rw [hn, pyStr_int, coerceVal_pyIntStr, ← hn]

theorem claim_C9_witness :
    toon_to_json (json_to_toon (.obj [("a".data, .int 1), ("b".data, .int 2)]) ("data".data))
      = .arr [.obj [("a".data, .int 1), ("b".data, .int 2)]] :=
  claim_C9_amended.2 [("a".data, .int 1), ("b".data, .int 2)]
    (by decide) (by decide) (by decide) (by decide)

theorem normalizeNums_shape {v : JVal} (h : goodVal v = true) :
    (∃ n, normalizeNums v = .int n) ∨ (∃ m d, normalizeNums v = .float m d) ∨
      (∃ t, normalizeNums v = .str t) := by
  cases v with
  | int n => exact Or.inl ⟨n, rfl⟩
  | str s => exact coerceVal_shape s
  | null => simp [goodVal] at h
  | bool b => simp [goodVal] at h
  | float m d => simp [goodVal] at h
  | arr xs => simp [goodVal] at h
  | obj o => simp [goodVal] at h

theorem encodeList_uniform {items : List JVal} {name : Str} (h0 : 0 < items.length)
    (huni : is_uniform_array (.arr items) = true) :
    encodeList items name = encodeUniform items name := by
  rw [encodeList, if_pos h0, if_neg (not_not_intro huni)]

theorem encodeUniform_cons (first : JVal) (rest : List JVal) (name : Str) :
    encodeUniform (first :: rest) name =
      mkHeader name (first :: rest).length (keysOf first) ++ '\n' ::
        pyJoin ['\n'] ((first :: rest).map (fun item =>
          ' ' :: pyJoin [','] ((keysOf first).map (fun k => formatValue (dictGet item k))))) := rfl

/-- C1 counterexample: the uniform one-element array `[{"a": ""}]` does not
round-trip.  The encoder renders the empty string as an empty cell, so the
whole document is the header plus a row consisting of a single space; the
decoder's initial `strip` swallows that row and decoding returns `[]`, which
is not equal (under Python `==`) to the original array even after numeric
normalisation. -/
theorem claim_C1_counterexample :
    is_uniform_array (.arr [.obj [("a".data, .str [])]]) = true
    ∧ pyEq (normalizeNums (.arr [.obj [("a".data, .str [])]]))
        (toon_to_json (json_to_toon (.arr [.obj [("a".data, .str [])]]) ("data".data)))
        = false := by
  decide

/-- C1 (amended): the round trip `decode(encode(array)) == array` up to
numeric normalisation holds for every non-empty uniform array of mappings
with consistent key sets provided the cells are round-trippable: each
mapping's keys are duplicate-free, the first mapping is non-empty and its
keys survive the header round trip (no `,`, `{`, `}` or newline, and
stripped), and every value is an int or a non-empty stripped string free of
double quotes and newlines (`server.py` lines 48-95 and 98-164).  (As
stated over all uniform arrays the claim is false — see the
counterexample with an empty-string value.) -/
theorem claim_C1_amended
    (firstK : List (Str × JVal)) (restK : List (List (Str × JVal)))
    (hfne : firstK ≠ [])
    (hnd : ∀ kvs ∈ firstK :: restK, (kvs.map Prod.fst).Nodup)
    (hset : ∀ kvs ∈ firstK :: restK,
      keySetEq (kvs.map Prod.fst) (firstK.map Prod.fst) = true)
    (hgk : ∀ k ∈ firstK.map Prod.fst, goodKey k = true)
    (hgv : ∀ kvs ∈ firstK :: restK, ∀ p ∈ kvs, goodVal p.2 = true) :
    pyEq (normalizeNums (.arr ((firstK :: restK).map JVal.obj)))
      (toon_to_json (json_to_toon (.arr ((firstK :: restK).map JVal.obj)) ("data".data)))
      = true := by
  have hkeysnd : (firstK.map Prod.fst).Nodup := hnd firstK (List.mem_cons_self _ _)
  have hkeysne : firstK.map Prod.fst ≠ [] := by
    cases firstK with
    | nil => exact absurd rfl hfne
    | cons a t => simp
  have hget : ∀ kvs ∈ firstK :: restK, ∀ k ∈ firstK.map Prod.fst,
      goodVal (dictGet (.obj kvs) k) = true := by
    intro kvs hkvs k hk
    have hk2 : k ∈ kvs.map Prod.fst := (keySetEq_iff.mp (hset kvs hkvs) k).mpr hk
    rcases List.mem_map.mp hk2 with ⟨q, hq, hq1⟩
    have hmem : (k, q.2) ∈ kvs := by rw [← hq1]; exact hq
    rw [dictGet_eq (hnd kvs hkvs) hmem]
    exact hgv kvs hkvs q hq
  have huni : is_uniform_array (.arr (JVal.obj firstK :: restK.map JVal.obj)) = true := by
    have h := is_uniform_of_mapped hset
    rwa [List.map_cons] at h
  rw [List.map_cons, json_to_toon_arr, encodeList_uniform (by simp) huni,
    encodeUniform_cons, keysOf_obj]
  have hJ : (((firstK :: restK).map (fun kvs =>
        (firstK.map Prod.fst).map (fun k =>
          (formatValue (dictGet (.obj kvs) k), pyStr (dictGet (.obj kvs) k))))).map
        (fun r => ' ' :: pyJoin [','] (r.map Prod.fst)))
      = (JVal.obj firstK :: restK.map JVal.obj).map (fun item =>
          ' ' :: pyJoin [','] ((firstK.map Prod.fst).map (fun k =>
            formatValue (dictGet item k)))) := by
    rw [← List.map_cons JVal.obj firstK restK, List.map_map, List.map_map]
    apply List.map_congr_left
    intro kvs _
    show ' ' :: pyJoin [','] (((firstK.map Prod.fst).map (fun k =>
        (formatValue (dictGet (.obj kvs) k), pyStr (dictGet (.obj kvs) k)))).map Prod.fst)
      = ' ' :: pyJoin [','] ((firstK.map Prod.fst).map (fun k =>
          formatValue (dictGet (.obj kvs) k)))
    rw [List.map_map]
    rfl
  rw [← hJ]
  have hdoc : ∀ J : Str,
      mkHeader ("data".data) (JVal.obj firstK :: restK.map JVal.obj).length
          (firstK.map Prod.fst) ++ '\n' :: J
        = ("data".data ++ '[' :: natToDigits (JVal.obj firstK :: restK.map JVal.obj).length
            ++ [']'])
          ++ ('{' :: pyJoin [','] (firstK.map Prod.fst)) ++ '}' :: ':' :: '\n' :: J := by
    intro J
    rw [mkHeader]
    simp
  rw [hdoc _]
  have hcells : ∀ r ∈ (firstK :: restK).map (fun kvs =>
        (firstK.map Prod.fst).map (fun k =>
          (formatValue (dictGet (.obj kvs) k), pyStr (dictGet (.obj kvs) k)))),
      r ≠ [] ∧ ∀ p ∈ r, CellOk p.1 p.2 := by
    intro r hr
    rcases List.mem_map.mp hr with ⟨kvs, hkvs, rfl⟩
    constructor
    · cases hkm : firstK.map Prod.fst with
      | nil => exact absurd hkm hkeysne
      | cons a t => simp
    · intro p hp
      rcases List.mem_map.mp hp with ⟨k, hk, rfl⟩
      exact (goodVal_cell (hget kvs hkvs k hk)).1
  have hlens : ∀ r ∈ (firstK :: restK).map (fun kvs =>
        (firstK.map Prod.fst).map (fun k =>
          (formatValue (dictGet (.obj kvs) k), pyStr (dictGet (.obj kvs) k)))),
      ((pySplitChar ',' (pyJoin [','] (firstK.map Prod.fst))).map pyStrip).length
        = r.length := by
    intro r hr
    rcases List.mem_map.mp hr with ⟨kvs, hkvs, rfl⟩
    rw [fields_of_clean_keys hkeysne hgk]
    simp
  rw [decode_table_doc (dataPre_facts _).1 (dataPre_facts _).2.1 (dataPre_facts _).2.2.1
    (dataPre_facts _).2.2.2 (pyJoin_keys_no hgk).1 (pyJoin_keys_no hgk).2
    (by simp) hcells hlens]
  rw [fields_of_clean_keys hkeysne hgk]
  have hlhs : normalizeNums (.arr (JVal.obj firstK :: restK.map JVal.obj))
      = .arr ((firstK :: restK).map (fun kvs =>
          JVal.obj (kvs.map (fun p => (p.1, normalizeNums p.2))))) := by
    show JVal.arr (normalizeNumsItems (JVal.obj firstK :: restK.map JVal.obj)) = _
    rw [normalizeNumsItems_eq_map]
    congr 1
    rw [← List.map_cons JVal.obj firstK restK, List.map_map]
    apply List.map_congr_left
    intro kvs _
    show JVal.obj (normalizeNumsPairs kvs) = _
    rw [normalizeNumsPairs_eq_map]
  have hrhs : ((firstK :: restK).map (fun kvs =>
        (firstK.map Prod.fst).map (fun k =>
          (formatValue (dictGet (.obj kvs) k), pyStr (dictGet (.obj kvs) k))))).map
        (fun r => JVal.obj (mkObjPairs (firstK.map Prod.fst) (r.map Prod.snd)))
      = (firstK :: restK).map (fun kvs =>
          JVal.obj ((firstK.map Prod.fst).map (fun k =>
            (k, coerceVal (pyStr (dictGet (.obj kvs) k)))))) := by
    rw [List.map_map]
    apply List.map_congr_left
    intro kvs _
    show JVal.obj (mkObjPairs (firstK.map Prod.fst)
        (((firstK.map Prod.fst).map (fun k =>
          (formatValue (dictGet (.obj kvs) k), pyStr (dictGet (.obj kvs) k)))).map Prod.snd))
      = _
    rw [List.map_map, mkObjPairs_eq hkeysnd (by simp), zip_self_map, List.map_map]
    rfl
  rw [hlhs, hrhs]
  apply pyEq_arr_of
  apply forall₂_map_map
  intro kvs hkvs
  apply pyEq_obj_of
  · have hl := length_eq_of_set_eq (hnd kvs hkvs) hkeysnd (keySetEq_iff.mp (hset kvs hkvs))
    simpa using hl
  · intro p hp
    rcases List.mem_map.mp hp with ⟨q, hq, rfl⟩
    have hk : q.1 ∈ firstK.map Prod.fst :=
      (keySetEq_iff.mp (hset kvs hkvs) q.1).mp (List.mem_map.mpr ⟨q, hq, rfl⟩)
    refine ⟨(q.1, coerceVal (pyStr (dictGet (.obj kvs) q.1))), find?_map_keys hkeysnd hk, ?_⟩
    show pyEq (normalizeNums q.2) (coerceVal (pyStr (dictGet (.obj kvs) q.1))) = true
    have hdg : dictGet (.obj kvs) q.1 = q.2 := dictGet_eq (hnd kvs hkvs) hq
    rw [hdg, (goodVal_cell (hgv kvs hkvs q hq)).2]
    exact pyEq_self_scalar (normalizeNums_shape (hgv kvs hkvs q hq))

theorem claim_C1_witness :
    pyEq (normalizeNums (.arr (([("a".data, JVal.int 1), ("b".data, JVal.str ['x'])]
          :: ([] : List (List (Str × JVal)))).map JVal.obj)))
      (toon_to_json (json_to_toon
        (.arr (([("a".data, JVal.int 1), ("b".data, JVal.str ['x'])]
          :: ([] : List (List (Str × JVal)))).map JVal.obj)) ("data".data))) = true :=
  claim_C1_amended [("a".data, JVal.int 1), ("b".data, JVal.str ['x'])] []
    (List.cons_ne_nil _ _) (by decide) (by decide) (by decide) (by decide)
